import Mathlib

/-!
Shallow embedding of the core of the rusty-ray renderer (src/vector.rs,
src/interval.rs, src/aabb.rs, src/ray.rs, src/objects/sphere.rs, src/bvh.rs,
src/scene.rs, src/material.rs, src/materials/*.rs, src/camera.rs), together
with theorems settling the frozen claims about it.

Numeric model: `f64` values are embedded as exact rationals (`ℚ`); arithmetic
is exact, with no rounding. The IEEE special values enter the model at two
places only. First, the constant `Interval::EMPTY` (start `+∞`, end `-∞`) and
the `Aabb::EMPTY` built from it are modeled in the extended-endpoint
development (`XQ := WithBot (WithTop ℚ)`, whose `⊤`/`⊥` are the two
infinities; the only operations the source applies to these fields are
`f64::min`/`f64::max` and comparisons, which on non-NaN floats are the order
operations). Second, the `f64::INFINITY` upper bound the integrator passes to
`Scene::hit` is modeled by making that bound a parameter of `rayColor` and
quantifying over it. Division by zero yields 0 in `ℚ` rather than an IEEE
infinity, so theorems about the slab test of `Aabb::hit` carry
nonzero-direction-component hypotheses where that distinction matters.
`f64::sqrt` and the transcendental `get_sphere_uv` have no exact `ℚ`
counterpart; both are parameters of the development (`FloatOps`), and the
properties of `sqrt` a theorem needs are stated as hypotheses scoped to the
inputs at which the source uses them.
-/

namespace RustyRay

/-- Vec3 (src/vector.rs): a vector in 3D space; also used as `Color` and
`Point3` via type aliases in the source. -/
structure Vec3 where
  x : ℚ
  y : ℚ
  z : ℚ
deriving DecidableEq, Repr

namespace Vec3

/-- Vec3::ZERO (src/vector.rs). -/
def ZERO : Vec3 := ⟨0, 0, 0⟩

/-- Color::WHITE (src/vector.rs). -/
def WHITE : Vec3 := ⟨1, 1, 1⟩

/-- Vec3::ONE: referenced by src/materials/metal.rs and lambertian.rs; its
definition is not among the repository's files, modeled as the all-ones
vector its name and uses (`[0,1] → [-1,1]` remapping) denote. -/
def ONE : Vec3 := ⟨1, 1, 1⟩

instance : Add Vec3 := ⟨fun a b => ⟨a.x + b.x, a.y + b.y, a.z + b.z⟩⟩

instance : Neg Vec3 := ⟨fun a => ⟨-a.x, -a.y, -a.z⟩⟩

instance : Sub Vec3 := ⟨fun a b => a + -b⟩

/-- Mul<f64> for Vec3 (scalar on the right, as the source writes it). -/
instance : HMul Vec3 ℚ Vec3 := ⟨fun a s => ⟨a.x * s, a.y * s, a.z * s⟩⟩

/-- Mul<Vec3> for Vec3 (componentwise product). -/
instance : Mul Vec3 := ⟨fun a b => ⟨a.x * b.x, a.y * b.y, a.z * b.z⟩⟩

/-- Div<f64> for Vec3: the source multiplies by the reciprocal. -/
instance : HDiv Vec3 ℚ Vec3 := ⟨fun a s => a * (1 / s)⟩

/-- Vec3::dot (src/vector.rs). -/
def dot (a b : Vec3) : ℚ := a.x * b.x + a.y * b.y + a.z * b.z

/-- Vec3::len_sq (src/vector.rs). -/
def len_sq (a : Vec3) : ℚ := a.x * a.x + a.y * a.y + a.z * a.z

/-- Vec3::reflect (src/vector.rs): `self - normal * dot(self, normal) * 2`. -/
def reflect (a normal : Vec3) : Vec3 := a - normal * (a.dot normal) * (2 : ℚ)

@[simp] theorem add_def (a b : Vec3) : a + b = ⟨a.x + b.x, a.y + b.y, a.z + b.z⟩ := rfl

@[simp] theorem neg_def (a : Vec3) : -a = ⟨-a.x, -a.y, -a.z⟩ := rfl

@[simp] theorem smul_def (a : Vec3) (s : ℚ) : a * s = ⟨a.x * s, a.y * s, a.z * s⟩ := rfl

@[simp] theorem hmul_def (a b : Vec3) : a * b = ⟨a.x * b.x, a.y * b.y, a.z * b.z⟩ := rfl

@[simp] theorem sub_def (a b : Vec3) : a - b = ⟨a.x - b.x, a.y - b.y, a.z - b.z⟩ := by
  show a + -b = _
  simp [sub_eq_add_neg]

@[simp] theorem div_def (a : Vec3) (s : ℚ) : a / s = ⟨a.x * (1 / s), a.y * (1 / s), a.z * (1 / s)⟩ := rfl

@[simp] theorem dot_def (a b : Vec3) : a.dot b = a.x * b.x + a.y * b.y + a.z * b.z := rfl

@[simp] theorem len_sq_def (a : Vec3) : a.len_sq = a.x * a.x + a.y * a.y + a.z * a.z := rfl

end Vec3

/-- Parameters of the model for the two operations of the source with no exact
`ℚ` counterpart: `f64::sqrt`, and `SphereObject::get_sphere_uv`
(src/objects/sphere.rs; built from `acos`, `atan2` and π). No claim depends
on the values of `sphereUv`; theorems that depend on properties of `sqrt`
state them as hypotheses at the inputs where they are used. -/
structure FloatOps where
  sqrt : ℚ → ℚ
  sphereUv : Vec3 → ℚ × ℚ

/-- Vec3::unit (src/vector.rs): `self / self.len()`, with
`len = sqrt (len_sq)`. -/
def Vec3.unit (F : FloatOps) (a : Vec3) : Vec3 := a / F.sqrt a.len_sq

/-- Vec3::refract (src/vector.rs). -/
def Vec3.refract (F : FloatOps) (a normal : Vec3) (etai_over_etat : ℚ) : Vec3 :=
  let cos_theta := min ((-a).dot normal) 1
  let r_out_perp := (a + normal * cos_theta) * etai_over_etat
  let r_out_parallel := normal * (-F.sqrt |1 - r_out_perp.len_sq|)
  r_out_perp + r_out_parallel

/-- Interval (src/interval.rs), generic in the endpoint type: the main
development instantiates `α := ℚ`; the development around `Interval::EMPTY`
instantiates the extended rationals `XQ`, which carry the two IEEE infinities
that constant's `f64` fields hold. `end` is a reserved word in Lean, so the
second field is named `stop`. -/
structure Interval (α : Type) where
  start : α
  stop : α
deriving DecidableEq, Repr

/-- Extended rationals: `ℚ` together with `⊤ = +∞` and `⊥ = -∞`. -/
abbrev XQ : Type := WithBot (WithTop ℚ)

/-- Interval::EMPTY (src/interval.rs): start `+∞`, end `-∞`. -/
def Interval.EMPTY : Interval XQ := ⟨⊤, ⊥⟩

/-- Aabb (src/aabb.rs): an axis-aligned bounding box, one interval per axis;
generic in the endpoint type like `Interval`. -/
structure Aabb (α : Type) where
  x : Interval α
  y : Interval α
  z : Interval α
deriving DecidableEq, Repr

/-- Aabb::EMPTY (src/aabb.rs). -/
def Aabb.EMPTY : Aabb XQ := ⟨Interval.EMPTY, Interval.EMPTY, Interval.EMPTY⟩

/-- Aabb::new (src/aabb.rs): a box from two corner points. -/
def Aabb.new (lo hi : Vec3) : Aabb ℚ := ⟨⟨lo.x, hi.x⟩, ⟨lo.y, hi.y⟩, ⟨lo.z, hi.z⟩⟩

/-- Aabb::grow (src/aabb.rs): componentwise `f64::min` of starts and
`f64::max` of ends. The source mutates `self`; the model returns the grown
box. On non-NaN floats (all of `XQ` and `ℚ`) `f64::min`/`f64::max` are the
order operations. -/
def Aabb.grow {α : Type} [LinearOrder α] (self other : Aabb α) : Aabb α :=
  ⟨⟨min self.x.start other.x.start, max self.x.stop other.x.stop⟩,
   ⟨min self.y.start other.y.start, max self.y.stop other.y.stop⟩,
   ⟨min self.z.start other.z.start, max self.z.stop other.z.stop⟩⟩

/-- Aabb::largest_axis (src/aabb.rs). -/
def Aabb.largest_axis (self : Aabb ℚ) : ℕ :=
  let x_extent := self.x.stop - self.x.start
  let y_extent := self.y.stop - self.y.start
  let z_extent := self.z.stop - self.z.start
  if x_extent > y_extent then
    if x_extent > z_extent then 0 else 2
  else if y_extent > z_extent then 1
  else 2

/-- Aabb::component (src/aabb.rs). An axis outside {0,1,2} is a fatal
contract violation in the source (`panic!`); the model returns the x
component there, a value no caller relies on. -/
def Aabb.component (self : Aabb ℚ) (axis : ℕ) : Interval ℚ :=
  match axis with
  | 0 => self.x
  | 1 => self.y
  | 2 => self.z
  | _ => self.x

/-- Ray (src/ray.rs). -/
structure Ray where
  orig : Vec3
  dir : Vec3
deriving DecidableEq, Repr

/-- Ray::at (src/ray.rs). -/
def Ray.at (r : Ray) (t : ℚ) : Vec3 := r.orig + r.dir * t

/-- One iteration of the slab loop of Aabb::hit (src/aabb.rs): tighten the
running interval against one axis, `none` when the loop would `return false`.
`inv_d = 1/dir` is `±∞` in IEEE when `dir = 0` but `0` in `ℚ`; theorems that
depend on this step therefore assume the direction component is nonzero. -/
def slabAxis (axis : Interval ℚ) (orig dir : ℚ) (time : Interval ℚ) :
    Option (Interval ℚ) :=
  let inv_d := 1 / dir
  let t0 := (axis.start - orig) * inv_d
  let t1 := (axis.stop - orig) * inv_d
  let p := if t1 < t0 then (t1, t0) else (t0, t1)
  let s := if p.1 > time.start then p.1 else time.start
  let e := if p.2 < time.stop then p.2 else time.stop
  if e ≤ s then none else some ⟨s, e⟩

/-- Aabb::hit (src/aabb.rs): the slab test over the three axes in order, with
the early `return false` modeled by the `Option.bind` chain. -/
def Aabb.hit (self : Aabb ℚ) (r : Ray) (time : Interval ℚ) : Bool :=
  ((((some time).bind (slabAxis self.x r.orig.x r.dir.x)).bind
      (slabAxis self.y r.orig.y r.dir.y)).bind
    (slabAxis self.z r.orig.z r.dir.z)).isSome

/-- Intersection (src/ray.rs): the record of a ray-object hit. MaterialId is
an opaque index, modeled as `ℕ`. -/
structure Intersection where
  point : Vec3
  normal : Vec3
  front_face : Bool
  material : ℕ
  t : ℚ
  u : ℚ
  v : ℚ
deriving DecidableEq, Repr

/-- Intersection::face_normal (src/ray.rs). -/
def Intersection.face_normal (r : Ray) (outward_normal : Vec3) : Bool × Vec3 :=
  if r.dir.dot outward_normal < 0 then (true, outward_normal)
  else (false, -outward_normal)

/-- SphereObject (src/objects/sphere.rs). -/
structure SphereObject where
  center : Vec3
  radius : ℚ
  material : ℕ
  bounding_box : Aabb ℚ
deriving DecidableEq, Repr

/-- SphereObject::calculate_aabb (src/objects/sphere.rs). -/
def SphereObject.calculate_aabb (center : Vec3) (radius : ℚ) : Aabb ℚ :=
  Aabb.new (center - ⟨radius, radius, radius⟩) (center + ⟨radius, radius, radius⟩)

/-- SphereObject::new (src/objects/sphere.rs): the bounding box is computed
once at construction. -/
def SphereObject.mk' (center : Vec3) (radius : ℚ) (material : ℕ) : SphereObject :=
  ⟨center, radius, material, SphereObject.calculate_aabb center radius⟩

/-- SphereObject::hit of the Hittable impl (src/objects/sphere.rs). -/
def SphereObject.hit (F : FloatOps) (self : SphereObject) (r : Ray)
    (time : Interval ℚ) : Option Intersection :=
  let oc := self.center - r.orig
  let a := r.dir.len_sq
  let h := oc.dot r.dir
  let c := oc.len_sq - self.radius * self.radius
  let discriminant := h * h - a * c
  if discriminant < 0 then none
  else
    let sqrt_d := F.sqrt discriminant
    let t1 := (h - sqrt_d) / a
    let t2 := (h + sqrt_d) / a
    let t := if t1 ≤ time.start ∨ time.stop ≤ t1 then
      if t2 ≤ time.start ∨ time.stop ≤ t2 then none else some t2
    else some t1
    match t with
    | none => none
    | some t =>
      let point := r.at t
      let outward_normal := (point - self.center) / self.radius
      let uv := F.sphereUv outward_normal
      let fn := Intersection.face_normal r outward_normal
      some ⟨point, fn.2, fn.1, self.material, t, uv.1, uv.2⟩

/-- BvhNode (src/bvh.rs): a leaf wraps one ObjectId; a branch holds two child
NodeIds and the box enclosing both children's content. ObjectId and NodeId
are opaque indices, modeled as `ℕ`. -/
inductive BvhNode where
  | leaf (object_id : ℕ)
  | branch (left : ℕ) (right : ℕ) (bounding_box : Aabb ℚ)
deriving DecidableEq, Repr

/-- Bvh (src/bvh.rs): a flat arena of nodes and an optional root index. -/
structure Bvh where
  nodes : List BvhNode
  root : Option ℕ
deriving DecidableEq, Repr

/-- Stable insertion of one element into a list wrt a `ℚ` key: the element
goes after every element with a smaller-or-equal key. -/
def insertByKey {α : Type} (key : α → ℚ) (a : α) : List α → List α
  | [] => [a]
  | b :: l => if key b ≤ key a then b :: insertByKey key a l else a :: b :: l

/-- The `slice::sort_by` call of Bvh::build_tree (src/bvh.rs), which sorts by
the start coordinate along one axis. Rust's `sort_by` is specified as a
stable sort wrt the comparator, which determines its output uniquely; the
model implements that contract as a stable insertion sort. -/
def sortByKey {α : Type} (key : α → ℚ) (l : List α) : List α :=
  l.foldl (fun acc a => insertByKey key a acc) []

/-- The fold of Aabb::grow over a range that Bvh::build_tree performs
(src/bvh.rs lines 55-58). The source starts the fold from `Aabb::EMPTY`
(`±∞` endpoints, the identity of `grow`); the `ℚ` model folds from the first
box instead, which is equal on the nonempty ranges `build_tree` works on.
The `[]` case is unreachable there; it returns a degenerate box. -/
def growAll (objects : List (ℕ × Aabb ℚ)) : Aabb ℚ :=
  match objects with
  | [] => ⟨⟨0, 0⟩, ⟨0, 0⟩, ⟨0, 0⟩⟩
  | p :: l => l.foldl (fun acc q => acc.grow q.2) p.2

/-- Bvh::build_tree (src/bvh.rs). The source works in place on a slice
`objects[start..end]` and pushes nodes into a `Vec`; the model passes the
range as a list and the arena explicitly, returning (created node id, new
arena). The recursion on two halves of the range is driven by `fuel`,
a bound on the recursion depth; `Bvh.new` supplies `objects.length`, which
theorem `buildTree_spec` below shows is always enough (each half of a range
of length ≥ 2 is strictly shorter). Exhausted fuel returns the arena
unchanged, a case that is never reached from `Bvh.new`. -/
def Bvh.buildTree : ℕ → List (ℕ × Aabb ℚ) → List BvhNode → ℕ × List BvhNode
  | 0, _, nodes => (0, nodes)
  | _ + 1, [], nodes => (0, nodes)
  | _ + 1, [(object_id, _)], nodes =>
    (nodes.length, nodes ++ [BvhNode.leaf object_id])
  | fuel + 1, p :: q :: rest, nodes =>
    let objects := p :: q :: rest
    let bounding_box := growAll objects
    let axis := bounding_box.largest_axis
    let sorted := sortByKey (fun o => (o.2.component axis).start) objects
    let mid := objects.length / 2
    let halves := sorted.splitAt mid
    let left := Bvh.buildTree fuel halves.1 nodes
    let right := Bvh.buildTree fuel halves.2 left.2
    (right.2.length, right.2 ++ [BvhNode.branch left.1 right.1 bounding_box])

/-- Bvh::new (src/bvh.rs): empty input produces a BVH with no root. -/
def Bvh.new (objects : List (ℕ × Aabb ℚ)) : Bvh :=
  if objects.isEmpty then ⟨[], none⟩
  else
    let built := Bvh.buildTree objects.length objects []
    ⟨built.2, some built.1⟩

/-- The explicit-stack loop of Bvh::hit (src/bvh.rs lines 97-115). The list
`stack` has its top at the head (`Vec::push`/`Vec::pop` work at the end; the
source pushes `left` then `right`, so `right` is popped first, modeled by
consing `right` before `left`). `acc` collects the hit candidates in the
order the source pushes them. Fuel drives the loop; `Bvh.hit` supplies
`2 ^ (nodes.length + 1)`, which `bvhLoop_measure` below shows is always
enough on arenas whose branches point strictly downward. Out-of-range arena
indexing is a panic in the source and is modeled by `getD` with a default
leaf; traversals from `Bvh::new` never index out of range. -/
def bvhLoop (b : Bvh) (r : Ray) (time : Interval ℚ) :
    ℕ → List ℕ → List ℕ → List ℕ
  | 0, _, acc => acc
  | _ + 1, [], acc => acc
  | fuel + 1, node_id :: stack, acc =>
    match b.nodes.getD node_id (BvhNode.leaf 0) with
    | BvhNode.leaf object_id => bvhLoop b r time fuel stack (acc ++ [object_id])
    | BvhNode.branch left right bounding_box =>
      if bounding_box.hit r time then
        bvhLoop b r time fuel (right :: left :: stack) acc
      else bvhLoop b r time fuel stack acc

/-- The candidate list Bvh::hit computes: empty when there is no root. -/
def Bvh.candidates (b : Bvh) (r : Ray) (time : Interval ℚ) : List ℕ :=
  match b.root with
  | none => []
  | some root => bvhLoop b r time (2 ^ (b.nodes.length + 1)) [root] []

/-- Bvh::hit (src/bvh.rs): `None` when there is no root (the `?` on
`self.root`) or when the candidate list ends up empty. -/
def Bvh.hit (b : Bvh) (r : Ray) (time : Interval ℚ) : Option (List ℕ) :=
  match b.root with
  | none => none
  | some root =>
    let hit_objects := bvhLoop b r time (2 ^ (b.nodes.length + 1)) [root] []
    if hit_objects.isEmpty then none else some hit_objects

/-- Scene (src/scene.rs): the object collection (every Hittable of the
repository is a SphereObject), the background function, and the optional
BVH. -/
structure Scene where
  objects : List SphereObject
  background_func : Vec3 → Vec3
  bvh : Option Bvh

/-- Scene::build_bvh (src/scene.rs): the BVH over the objects' bounding
boxes, ids in insertion order starting at 0 (`enumerate`). -/
def Scene.build_bvh (s : Scene) : Scene :=
  { s with bvh := some (Bvh.new (s.objects.enum.map (fun p => (p.1, p.2.bounding_box)))) }

/-- The default used to model the (unreachable) out-of-range object indexing
of `Scene`'s `Index<ObjectId>` impl, which panics in the source. -/
def SphereObject.dflt : SphereObject := SphereObject.mk' ⟨0, 0, 0⟩ 0 0

/-- The shrinking-interval loop shared by Scene::hit_fast and Scene::hit_slow
(src/scene.rs lines 79-85 and 95-101): each accepted hit tightens the
interval's end to its `t` and replaces the running closest hit. -/
def hitScan (F : FloatOps) :
    List SphereObject → Ray → Interval ℚ → Option Intersection → Option Intersection
  | [], _, _, closest => closest
  | o :: rest, r, time, closest =>
    match SphereObject.hit F o r time with
    | some intersection =>
      hitScan F rest r ⟨time.start, intersection.t⟩ (some intersection)
    | none => hitScan F rest r time closest

/-- Scene::hit_slow (src/scene.rs): the linear path over the full object
collection. -/
def Scene.hit_slow (F : FloatOps) (s : Scene) (r : Ray) (time : Interval ℚ) :
    Option Intersection :=
  hitScan F s.objects r time none

/-- Scene::hit_fast (src/scene.rs): candidates from the BVH (`?` returns
`None` when it reports none), then the shrinking-interval loop over the
candidates in the order returned. `Scene::hit` only calls this when a BVH is
present (the source `unwrap`s); the model returns `None` for an absent BVH. -/
def Scene.hit_fast (F : FloatOps) (s : Scene) (r : Ray) (time : Interval ℚ) :
    Option Intersection :=
  match s.bvh with
  | none => none
  | some b =>
    match b.hit r time with
    | none => none
    | some object_ids =>
      hitScan F (object_ids.map (fun i => s.objects.getD i SphereObject.dflt)) r time none

/-- Scene::hit (src/scene.rs): the fast path when a BVH is present, the
linear fallback otherwise. -/
def Scene.hit (F : FloatOps) (s : Scene) (r : Ray) (time : Interval ℚ) :
    Option Intersection :=
  if s.bvh.isSome then s.hit_fast F r time else s.hit_slow F r time

/-- Resources as the integrator consumes them (src/resources.rs,
src/material.rs): materials are addressed by id and used only through the
`Material` trait's `scatter` and `emit`; the trait-object dynamic dispatch is
modeled by function fields. `scatter`'s randomness (the thread-local RNG) is
inside the function value. -/
structure Resources where
  scatter : ℕ → Ray → Intersection → Option (Ray × Vec3)
  emit : ℕ → Intersection → Vec3

/-- Camera::ray_color (src/camera.rs). The recursion is structural on
`depth` (the source recurses at `depth - 1` after the `depth == 0` check).
`tInf` models the `f64::INFINITY` upper bound of the hit interval, which has
no `ℚ` value: every theorem below quantifies over it. -/
def rayColor (F : FloatOps) (scene : Scene) (resources : Resources) (tInf : ℚ) :
    Ray → ℕ → Vec3
  | _, 0 => Vec3.ZERO
  | r, depth + 1 =>
    match scene.hit F r ⟨1 / 1000, tInf⟩ with
    | none => scene.background_func r.dir
    | some hit =>
      let emitted := resources.emit hit.material hit
      match resources.scatter hit.material r hit with
      | none => emitted
      | some (scatter_ray, scattered) =>
        emitted + rayColor F scene resources tInf scatter_ray depth * scattered

/-- Material::scatter's default body (src/material.rs lines 12-19): always
`None`. -/
def materialDefaultScatter (_ray : Ray) (_hit : Intersection) :
    Option (Ray × Vec3) :=
  none

/-- MetalMaterial (src/materials/metal.rs). -/
structure MetalMaterial where
  albedo : Vec3
  fuzz : ℚ
  normal_map : Option ℕ

/-- MetalMaterial::scatter (src/materials/metal.rs). `tex` models the texture
lookup `resources[id].color(resources, u, v)`; `conv` models
`Vec3::convert_to_world_space`, which the source references but whose
definition is not among the repository's files; `rand` models the draw
`Vec3::random_in_unit_sphere()`. The claim settled about this function does
not depend on the values of any of the three. -/
def MetalMaterial.scatter (F : FloatOps) (m : MetalMaterial)
    (tex : ℕ → ℚ → ℚ → Vec3) (conv : Vec3 → Vec3 → Vec3) (rand : Vec3)
    (ray : Ray) (hit : Intersection) : Option (Ray × Vec3) :=
  let normal :=
    match m.normal_map with
    | some normal_map => conv hit.normal (tex normal_map hit.u hit.v * (2 : ℚ) - Vec3.ONE)
    | none => hit.normal
  let reflected := Vec3.unit F (ray.dir.reflect normal) + rand * m.fuzz
  some (⟨hit.point, reflected⟩, m.albedo)

/-- DielectricMaterial (src/materials/dielectric.rs). -/
structure DielectricMaterial where
  refraction_index : ℚ

/-- DielectricMaterial::scatter (src/materials/dielectric.rs). -/
def DielectricMaterial.scatter (F : FloatOps) (m : DielectricMaterial)
    (ray : Ray) (hit : Intersection) : Option (Ray × Vec3) :=
  let ri := if hit.front_face then 1 / m.refraction_index else m.refraction_index
  let unit_direction := Vec3.unit F ray.dir
  let cos_theta := min ((-unit_direction).dot hit.normal) 1
  let sin_theta := F.sqrt (1 - cos_theta * cos_theta)
  let cannot_refract := ri * sin_theta > 1
  let direction :=
    if cannot_refract then unit_direction.reflect hit.normal
    else Vec3.refract F unit_direction hit.normal ri
  some (⟨hit.point, direction⟩, Vec3.WHITE)

/-- DiffuseLightMaterial (src/materials/diffuse_light.rs): it overrides only
`emit`, so its `scatter` is the trait default. -/
structure DiffuseLightMaterial where
  texture : ℕ

/-- DiffuseLightMaterial's scatter: the `Material` trait default
(src/material.rs), since src/materials/diffuse_light.rs overrides only
`emit`. -/
def DiffuseLightMaterial.scatter (_m : DiffuseLightMaterial) (ray : Ray)
    (hit : Intersection) : Option (Ray × Vec3) :=
  materialDefaultScatter ray hit

/-! Theorems. -/

/-- Extent of a box along one axis, as Aabb::largest_axis computes it. -/
def Aabb.extent (self : Aabb ℚ) (axis : ℕ) : ℚ :=
  (self.component axis).stop - (self.component axis).start

/-- C7: for every AABB, `largest_axis` returns an axis (0, 1 or 2) whose
extent is greater than or equal to the extents of both other axes, and exact
ties are resolved deterministically by the source's comparison chain
(`x > y`, then the winner against `z`, with ties falling through to the later
axis), never randomly. -/
theorem largest_axis_spec (a : Aabb ℚ) :
    (a.largest_axis = 0 ∨ a.largest_axis = 1 ∨ a.largest_axis = 2) ∧
    (∀ i, i < 3 → a.extent i ≤ a.extent a.largest_axis) ∧
    a.largest_axis =
      (if a.extent 0 > a.extent 1 then
        if a.extent 0 > a.extent 2 then 0 else 2
      else if a.extent 1 > a.extent 2 then 1
      else 2) := by
  refine ⟨?_, ?_, rfl⟩
  · simp only [Aabb.largest_axis]
    split_ifs <;> simp
  · intro i hi
    simp only [Aabb.largest_axis, Aabb.extent, Aabb.component]
    interval_cases i <;> split_ifs <;> simp_all <;> linarith

/-- C8: Aabb::grow computes the componentwise union (min of starts, max of
ends per axis) and, as a binary operation on boxes over the extended
rationals (`f64` with its infinities), is idempotent and commutative, with
`Aabb::EMPTY` (start `+∞`, end `-∞` on every axis) as identity. -/
theorem grow_union_algebra (a b : Aabb XQ) :
    a.grow b =
      ⟨⟨min a.x.start b.x.start, max a.x.stop b.x.stop⟩,
       ⟨min a.y.start b.y.start, max a.y.stop b.y.stop⟩,
       ⟨min a.z.start b.z.start, max a.z.stop b.z.stop⟩⟩ ∧
    a.grow a = a ∧
    a.grow b = b.grow a ∧
    a.grow Aabb.EMPTY = a := by
  obtain ⟨⟨ax, ax'⟩, ⟨ay, ay'⟩, ⟨az, az'⟩⟩ := a
  obtain ⟨⟨bx, bx'⟩, ⟨by', by''⟩, ⟨bz, bz'⟩⟩ := b
  refine ⟨rfl, ?_, ?_, ?_⟩ <;>
    simp [Aabb.grow, Aabb.EMPTY, Interval.EMPTY, min_comm, max_comm]

/-- C2: Bvh::hit records the object id of every popped Leaf unconditionally
(no box or geometry test at leaves), pushes a Branch's two children exactly
when the branch's box passes the slab test against the given interval, and
returns `None` exactly when the candidate list ends up empty — in particular
always `None` for a BVH built from an empty object list, which has no root. -/
theorem bvh_hit_spec (b : Bvh) (r : Ray) (time : Interval ℚ) (fuel node_id : ℕ)
    (stack acc : List ℕ) :
    Bvh.hit (Bvh.new []) r time = none ∧
    (bvhLoop b r time (fuel + 1) (node_id :: stack) acc =
      match b.nodes.getD node_id (BvhNode.leaf 0) with
      | BvhNode.leaf object_id => bvhLoop b r time fuel stack (acc ++ [object_id])
      | BvhNode.branch left right bounding_box =>
        if bounding_box.hit r time then
          bvhLoop b r time fuel (right :: left :: stack) acc
        else bvhLoop b r time fuel stack acc) ∧
    Bvh.hit b r time =
      (if b.candidates r time = [] then none else some (b.candidates r time)) := by
  refine ⟨rfl, rfl, ?_⟩
  simp only [Bvh.hit, Bvh.candidates]
  cases b.root with
  | none => rfl
  | some root => simp [List.isEmpty_iff]

/-- C10: MetalMaterial::scatter and DielectricMaterial::scatter return `Some`
for every input ray, hit record and random draw — neither material ever
absorbs a ray, even when the fuzz-perturbed reflection points below the
surface; only the `Material` trait's default `scatter` (the one
DiffuseLightMaterial inherits) returns `None`. -/
theorem material_scatter_totality (F : FloatOps) (m : MetalMaterial)
    (d : DielectricMaterial) (dl : DiffuseLightMaterial)
    (tex : ℕ → ℚ → ℚ → Vec3) (conv : Vec3 → Vec3 → Vec3) (rand : Vec3)
    (ray : Ray) (hit : Intersection) :
    (m.scatter F tex conv rand ray hit).isSome = true ∧
    (d.scatter F ray hit).isSome = true ∧
    materialDefaultScatter ray hit = none ∧
    dl.scatter ray hit = none :=
  ⟨rfl, rfl, rfl, rfl⟩

/-- Discriminant of the ray-sphere quadratic, in the half-b form
SphereObject::hit computes (`h*h - a*c`). -/
def sphereDiscriminant (s : SphereObject) (r : Ray) : ℚ :=
  let oc := s.center - r.orig
  let a := r.dir.len_sq
  let h := oc.dot r.dir
  let c := oc.len_sq - s.radius * s.radius
  h * h - a * c

/-- The smaller candidate root `(h - sqrt d) / a` of SphereObject::hit
(smaller whenever `sqrt` returns a nonnegative value). -/
def sphereRoot1 (F : FloatOps) (s : SphereObject) (r : Ray) : ℚ :=
  let oc := s.center - r.orig
  (oc.dot r.dir - F.sqrt (sphereDiscriminant s r)) / r.dir.len_sq

/-- The larger candidate root `(h + sqrt d) / a` of SphereObject::hit. -/
def sphereRoot2 (F : FloatOps) (s : SphereObject) (r : Ray) : ℚ :=
  let oc := s.center - r.orig
  (oc.dot r.dir + F.sqrt (sphereDiscriminant s r)) / r.dir.len_sq

/-- The intersection record SphereObject::hit builds at parameter `t`. -/
def sphereRecord (F : FloatOps) (s : SphereObject) (r : Ray) (t : ℚ) :
    Intersection :=
  let point := r.at t
  let outward_normal := (point - s.center) / s.radius
  let uv := F.sphereUv outward_normal
  let fn := Intersection.face_normal r outward_normal
  ⟨point, fn.2, fn.1, s.material, t, uv.1, uv.2⟩

/-- SphereObject::hit as one closed-form case split over the discriminant
sign and the two roots' positions in the open time interval. -/
theorem sphere_hit_eq (F : FloatOps) (s : SphereObject) (r : Ray)
    (time : Interval ℚ) :
    s.hit F r time =
      (if sphereDiscriminant s r < 0 then none
       else if sphereRoot1 F s r ≤ time.start ∨ time.stop ≤ sphereRoot1 F s r then
         if sphereRoot2 F s r ≤ time.start ∨ time.stop ≤ sphereRoot2 F s r then none
         else some (sphereRecord F s r (sphereRoot2 F s r))
       else some (sphereRecord F s r (sphereRoot1 F s r))) := by
  simp only [SphereObject.hit, sphereDiscriminant, sphereRoot1, sphereRoot2,
    sphereRecord]
  split_ifs <;> rfl

theorem len_sq_nonneg (v : Vec3) : 0 ≤ v.len_sq := by
  have hx := mul_self_nonneg v.x
  have hy := mul_self_nonneg v.y
  have hz := mul_self_nonneg v.z
  rw [Vec3.len_sq_def]
  linarith

theorem sphereRoot_le (F : FloatOps) (s : SphereObject) (r : Ray)
    (hs : 0 ≤ F.sqrt (sphereDiscriminant s r)) :
    sphereRoot1 F s r ≤ sphereRoot2 F s r := by
  simp only [sphereRoot1, sphereRoot2]
  rcases eq_or_lt_of_le (len_sq_nonneg r.dir) with ha | ha
  · rw [← ha, div_zero, div_zero]
  · exact (div_le_div_iff_of_pos_right ha).mpr (by linarith)

/-- Concrete `sqrt`/`uv` used by the concrete scenario conjunct of the C5
theorem (the discriminant there is 1). -/
def opsUnit : FloatOps := ⟨fun _ => 1, fun _ => (0, 0)⟩

/-- Unit sphere about the origin, material id 7. -/
def sphereAtOrigin : SphereObject := SphereObject.mk' ⟨0, 0, 0⟩ 1 7

/-- Ray fired from the center of `sphereAtOrigin` toward +x: it meets the
inner surface of the sphere from inside. -/
def rayFromInside : Ray := ⟨⟨0, 0, 0⟩, ⟨1, 0, 0⟩⟩

/-- C5: every intersection satisfies the front-facing convention:
`front_face` is true exactly when `dot(ray.direction, outward_normal) < 0`,
the reported normal is the outward normal then and its negation otherwise, so
`dot(ray.direction, reported_normal) ≤ 0` always; every record
SphereObject::hit produces follows that convention with outward normal
`(point - center) / radius`; and a ray fired from inside a sphere at its
inner surface reports `front_face = false` with an inward-pointing normal. -/
theorem face_normal_spec (F : FloatOps) (s : SphereObject) (r : Ray)
    (time : Interval ℚ) (outward_normal : Vec3) :
    (Intersection.face_normal r outward_normal).1 =
      decide (r.dir.dot outward_normal < 0) ∧
    (Intersection.face_normal r outward_normal).2 =
      (if r.dir.dot outward_normal < 0 then outward_normal else -outward_normal) ∧
    r.dir.dot (Intersection.face_normal r outward_normal).2 ≤ 0 ∧
    (∀ i, s.hit F r time = some i →
      i.front_face = decide (r.dir.dot ((r.at i.t - s.center) / s.radius) < 0) ∧
      i.normal =
        (if r.dir.dot ((r.at i.t - s.center) / s.radius) < 0 then
          (r.at i.t - s.center) / s.radius
        else -((r.at i.t - s.center) / s.radius))) ∧
    (SphereObject.hit opsUnit sphereAtOrigin rayFromInside ⟨1 / 1000, 1000⟩).map
        (fun i => (i.front_face, i.normal)) =
      some (false, ⟨-1, 0, 0⟩) := by
  have hface : ∀ n : Vec3,
      (Intersection.face_normal r n).1 = decide (r.dir.dot n < 0) ∧
      (Intersection.face_normal r n).2 = (if r.dir.dot n < 0 then n else -n) := by
    intro n
    simp only [Intersection.face_normal]
    split_ifs <;> simp_all
  refine ⟨(hface outward_normal).1, (hface outward_normal).2, ?_, ?_, ?_⟩
  · simp only [Intersection.face_normal]
    split_ifs with h
    · exact le_of_lt h
    · have h' := not_lt.mp h
      simp only [Vec3.dot_def, Vec3.neg_def] at h' ⊢
      nlinarith
  · intro i hi
    rw [sphere_hit_eq] at hi
    split_ifs at hi <;> simp only [Option.some.injEq] at hi <;>
      subst hi <;>
      exact ⟨(hface _).1, (hface _).2⟩
  · norm_num [SphereObject.hit, sphereAtOrigin, rayFromInside, opsUnit,
      SphereObject.mk', SphereObject.calculate_aabb, Aabb.new, Ray.at,
      Intersection.face_normal]

/-- C4: SphereObject::hit returns `None` when the discriminant is negative;
otherwise it selects the first candidate root `(h - sqrt d)/a` when that
root lies strictly inside the open interval `(time.start, time.end)`, else
the second root `(h + sqrt d)/a` under the same strict condition, else
returns `None`; the returned intersection's `t` equals the selected root;
and whenever `sqrt` returns a nonnegative value (as `f64::sqrt` does on the
nonnegative discriminant) the first candidate root is indeed the smaller
of the two. -/
theorem sphere_hit_root_selection (F : FloatOps) (s : SphereObject) (r : Ray)
    (time : Interval ℚ) :
    (sphereDiscriminant s r < 0 → s.hit F r time = none) ∧
    (0 ≤ sphereDiscriminant s r →
      ((time.start < sphereRoot1 F s r ∧ sphereRoot1 F s r < time.stop →
        ∃ i, s.hit F r time = some i ∧ i.t = sphereRoot1 F s r) ∧
       (¬(time.start < sphereRoot1 F s r ∧ sphereRoot1 F s r < time.stop) →
        time.start < sphereRoot2 F s r ∧ sphereRoot2 F s r < time.stop →
        ∃ i, s.hit F r time = some i ∧ i.t = sphereRoot2 F s r) ∧
       (¬(time.start < sphereRoot1 F s r ∧ sphereRoot1 F s r < time.stop) →
        ¬(time.start < sphereRoot2 F s r ∧ sphereRoot2 F s r < time.stop) →
        s.hit F r time = none))) ∧
    (0 ≤ F.sqrt (sphereDiscriminant s r) →
      sphereRoot1 F s r ≤ sphereRoot2 F s r) := by
  refine ⟨?_, ?_, sphereRoot_le F s r⟩
  · intro h
    rw [sphere_hit_eq, if_pos h]
  · intro hd
    rw [sphere_hit_eq, if_neg (not_lt.mpr hd)]
    refine ⟨?_, ?_, ?_⟩
    · intro h1
      rw [if_neg (by push_neg; exact h1)]
      exact ⟨_, rfl, rfl⟩
    · intro h1 h2
      rw [if_pos (by by_contra hc; push_neg at hc; exact h1 hc),
        if_neg (by push_neg; exact h2)]
      exact ⟨_, rfl, rfl⟩
    · intro h1 h2
      rw [if_pos (by by_contra hc; push_neg at hc; exact h1 hc),
        if_pos (by by_contra hc; push_neg at hc; exact h2 hc)]

/-- Componentwise non-negativity of a color. -/
def Vec3.nonneg (v : Vec3) : Prop := 0 ≤ v.x ∧ 0 ≤ v.y ∧ 0 ≤ v.z

/-- C6: ray_color at `depth = 0` returns exactly black for every scene,
resources and ray; for every finite depth the recursion is total and
satisfies its defining equation, each recursive call at `depth - 1` (the
model's recursion is structural on `depth`, which is the source's
termination argument); and when every material emission and scatter
attenuation and the background are componentwise non-negative, so is the
returned color, at every depth. `tInf` stands for the `f64::INFINITY` upper
hit bound, quantified over. -/
theorem ray_color_spec (F : FloatOps) (scene : Scene) (resources : Resources)
    (tInf : ℚ) :
    (∀ r : Ray, rayColor F scene resources tInf r 0 = Vec3.ZERO) ∧
    (∀ (r : Ray) (depth : ℕ),
      rayColor F scene resources tInf r (depth + 1) =
        match scene.hit F r ⟨1 / 1000, tInf⟩ with
        | none => scene.background_func r.dir
        | some hit =>
          match resources.scatter hit.material r hit with
          | none => resources.emit hit.material hit
          | some (scatter_ray, scattered) =>
            resources.emit hit.material hit +
              rayColor F scene resources tInf scatter_ray depth * scattered) ∧
    ((∀ (m : ℕ) (i : Intersection), (resources.emit m i).nonneg) →
     (∀ (m : ℕ) (r : Ray) (i : Intersection) (r' : Ray) (att : Vec3),
        resources.scatter m r i = some (r', att) → att.nonneg) →
     (∀ v : Vec3, (scene.background_func v).nonneg) →
     ∀ (r : Ray) (depth : ℕ), (rayColor F scene resources tInf r depth).nonneg) := by
  refine ⟨fun _ => rfl, fun r depth => rfl, ?_⟩
  intro hem hsc hbg r depth
  induction depth generalizing r with
  | zero => exact ⟨le_refl 0, le_refl 0, le_refl 0⟩
  | succ d ih =>
    show (rayColor F scene resources tInf r (d + 1)).nonneg
    rw [rayColor]
    cases hh : scene.hit F r ⟨1 / 1000, tInf⟩ with
    | none => exact hbg r.dir
    | some hit =>
      dsimp only
      cases hs : resources.scatter hit.material r hit with
      | none => exact hem hit.material hit
      | some pair =>
        obtain ⟨scatter_ray, scattered⟩ := pair
        dsimp only
        obtain ⟨he1, he2, he3⟩ := hem hit.material hit
        obtain ⟨ha1, ha2, ha3⟩ := hsc hit.material r hit scatter_ray scattered hs
        obtain ⟨hc1, hc2, hc3⟩ := ih scatter_ray
        exact ⟨add_nonneg he1 (mul_nonneg hc1 ha1),
          add_nonneg he2 (mul_nonneg hc2 ha2),
          add_nonneg he3 (mul_nonneg hc3 ha3)⟩

theorem insertByKey_perm {α : Type} (key : α → ℚ) (a : α) (l : List α) :
    (insertByKey key a l).Perm (a :: l) := by
  induction l with
  | nil => exact List.Perm.refl _
  | cons b l ih =>
    simp only [insertByKey]
    split_ifs
    · exact (ih.cons b).trans (List.Perm.swap a b l)
    · exact List.Perm.refl _

theorem sortByKey_perm {α : Type} (key : α → ℚ) (l : List α) :
    (sortByKey key l).Perm l := by
  have gen : ∀ (l acc : List α),
      (l.foldl (fun acc a => insertByKey key a acc) acc).Perm (acc ++ l) := by
    intro l
    induction l with
    | nil => intro acc; simp
    | cons a l ih =>
      intro acc
      refine (ih (insertByKey key a acc)).trans ?_
      refine (List.Perm.append (insertByKey_perm key a acc) (List.Perm.refl l)).trans ?_
      exact List.perm_middle.symm.trans (List.Perm.refl _)
  simpa using gen l []

/-- Containment of one box in another, axis by axis. -/
def boxContains (outer inner : Aabb ℚ) : Prop :=
  outer.x.start ≤ inner.x.start ∧ inner.x.stop ≤ outer.x.stop ∧
  outer.y.start ≤ inner.y.start ∧ inner.y.stop ≤ outer.y.stop ∧
  outer.z.start ≤ inner.z.start ∧ inner.z.stop ≤ outer.z.stop

theorem boxContains_grow_left (a b : Aabb ℚ) : boxContains (a.grow b) a := by
  refine ⟨min_le_left _ _, le_max_left _ _, min_le_left _ _, le_max_left _ _,
    min_le_left _ _, le_max_left _ _⟩

theorem boxContains_grow_right (a b : Aabb ℚ) : boxContains (a.grow b) b := by
  refine ⟨min_le_right _ _, le_max_right _ _, min_le_right _ _, le_max_right _ _,
    min_le_right _ _, le_max_right _ _⟩

theorem boxContains_trans {a b c : Aabb ℚ} (h1 : boxContains a b)
    (h2 : boxContains b c) : boxContains a c := by
  obtain ⟨p1, p2, p3, p4, p5, p6⟩ := h1
  obtain ⟨q1, q2, q3, q4, q5, q6⟩ := h2
  exact ⟨p1.trans q1, q2.trans p2, p3.trans q3, q4.trans p4, p5.trans q5, q6.trans p6⟩

theorem growAll_contains (l : List (ℕ × Aabb ℚ)) :
    ∀ p ∈ l, boxContains (growAll l) p.2 := by
  have gen : ∀ (l : List (ℕ × Aabb ℚ)) (acc : Aabb ℚ),
      boxContains (l.foldl (fun acc q => acc.grow q.2) acc) acc ∧
      ∀ p ∈ l, boxContains (l.foldl (fun acc q => acc.grow q.2) acc) p.2 := by
    intro l
    induction l with
    | nil =>
      intro acc
      exact ⟨⟨le_refl _, le_refl _, le_refl _, le_refl _, le_refl _, le_refl _⟩,
        by simp⟩
    | cons q l ih =>
      intro acc
      obtain ⟨h1, h2⟩ := ih (acc.grow q.2)
      refine ⟨boxContains_trans h1 (boxContains_grow_left acc q.2), ?_⟩
      intro p hp
      rcases List.mem_cons.mp hp with rfl | hp
      · exact boxContains_trans h1 (boxContains_grow_right acc p.2)
      · exact h2 p hp
  intro p hp
  match l, hp with
  | q :: rest, hp =>
    simp only [growAll]
    rcases List.mem_cons.mp hp with rfl | hp
    · exact (gen rest p.2).1
    · exact (gen rest q.2).2 p hp

/-- The object ids stored in the leaves of an arena segment. -/
def leafIds (nodes : List BvhNode) : List ℕ :=
  nodes.filterMap (fun n =>
    match n with
    | BvhNode.leaf object_id => some object_id
    | BvhNode.branch _ _ _ => none)

/-- Correctness skeleton of one BVH subtree rooted at `idx` in the arena
`nodes`: the leaves below the root hold exactly one item each, a branch's
item multiset is the union of its children's, and every item's box is
contained in every enclosing branch's stored box. -/
inductive SubtreeOk (nodes : List BvhNode) : ℕ → List (ℕ × Aabb ℚ) → Prop where
  | leaf (idx object_id : ℕ) (bb : Aabb ℚ) :
      nodes[idx]? = some (BvhNode.leaf object_id) →
      SubtreeOk nodes idx [(object_id, bb)]
  | branch (idx left right : ℕ) (box : Aabb ℚ)
      (litems ritems items : List (ℕ × Aabb ℚ)) :
      nodes[idx]? = some (BvhNode.branch left right box) →
      SubtreeOk nodes left litems → SubtreeOk nodes right ritems →
      items.Perm (litems ++ ritems) →
      (∀ p ∈ items, boxContains box p.2) →
      SubtreeOk nodes idx items

theorem SubtreeOk.append {nodes : List BvhNode} {idx : ℕ}
    {items : List (ℕ × Aabb ℚ)} (h : SubtreeOk nodes idx items)
    (more : List BvhNode) :
    SubtreeOk (nodes ++ more) idx items := by
  induction h with
  | leaf idx object_id bb hget =>
    refine SubtreeOk.leaf idx object_id bb ?_
    rw [List.getElem?_append_left (List.getElem?_eq_some.mp hget).1]
    exact hget
  | branch idx left right box litems ritems items hget _ _ hperm hbox ihl ihr =>
    refine SubtreeOk.branch idx left right box litems ritems items ?_ ihl ihr hperm hbox
    rw [List.getElem?_append_left (List.getElem?_eq_some.mp hget).1]
    exact hget

theorem buildTree_cons_cons (fuel : ℕ) (p q : ℕ × Aabb ℚ)
    (rest : List (ℕ × Aabb ℚ)) (nodes : List BvhNode) :
    Bvh.buildTree (fuel + 1) (p :: q :: rest) nodes =
      (let objects := p :: q :: rest
       let bounding_box := growAll objects
       let axis := bounding_box.largest_axis
       let sorted := sortByKey (fun o => (o.2.component axis).start) objects
       let mid := objects.length / 2
       let halves := sorted.splitAt mid
       let left := Bvh.buildTree fuel halves.1 nodes
       let right := Bvh.buildTree fuel halves.2 left.2
       (right.2.length, right.2 ++ [BvhNode.branch left.1 right.1 bounding_box])) :=
  rfl

/-- Shape of the arena Bvh::build_tree produces on a nonempty range: it
appends a block of `2n - 1` nodes whose last element is the returned root,
every branch in the block points strictly downward (and its left child below
its right child), the leaves of the block carry exactly the input ids, and
the block is a well-formed subtree (`SubtreeOk`) over the input items. -/
theorem buildTree_spec (fuel : ℕ) :
    ∀ (objects : List (ℕ × Aabb ℚ)) (nodes : List BvhNode),
      objects ≠ [] → objects.length ≤ fuel →
      ∃ delta : List BvhNode,
        Bvh.buildTree fuel objects nodes =
          (nodes.length + delta.length - 1, nodes ++ delta) ∧
        delta.length = 2 * objects.length - 1 ∧
        (leafIds delta).Perm (objects.map Prod.fst) ∧
        (∀ j l r box, delta[j]? = some (BvhNode.branch l r box) →
          nodes.length ≤ l ∧ l < r ∧ r < nodes.length + j) ∧
        SubtreeOk (nodes ++ delta) (nodes.length + delta.length - 1) objects := by
  induction fuel with
  | zero =>
    intro objects nodes hne hlen
    cases objects with
    | nil => exact absurd rfl hne
    | cons a t => simp at hlen
  | succ fuel ih =>
    intro objects nodes hne hlen
    cases objects with
    | nil => exact absurd rfl hne
    | cons p t =>
      cases t with
      | nil =>
        refine ⟨[BvhNode.leaf p.1], ?_, by simp, ?_, ?_, ?_⟩
        · simp [Bvh.buildTree]
        · simp [leafIds]
        · intro j l r box hj
          rcases j with _ | j <;> simp at hj
        · exact SubtreeOk.leaf nodes.length p.1 p.2
            (List.getElem?_concat_length nodes _)
      | cons q rest =>
        have hn2 : 2 ≤ (p :: q :: rest).length := by simp
        have hperm_sorted :
            (sortByKey
                (fun o => (o.2.component (growAll (p :: q :: rest)).largest_axis).start)
                (p :: q :: rest)).Perm (p :: q :: rest) :=
          sortByKey_perm _ _
        set key := fun o : ℕ × Aabb ℚ =>
          (o.2.component (growAll (p :: q :: rest)).largest_axis).start with hkey
        set sorted := sortByKey key (p :: q :: rest) with hsorted
        set n := (p :: q :: rest).length with hn
        set mid := n / 2 with hmid
        have hslen : sorted.length = n := hperm_sorted.length_eq
        have hmid1 : 1 ≤ mid := by omega
        have hmidn : mid ≤ n - 1 := by omega
        have htake_len : (sorted.take mid).length = mid := by
          simp [List.length_take, hslen]
          omega
        have hdrop_len : (sorted.drop mid).length = n - mid := by
          simp [List.length_drop, hslen]
        have htake_ne : sorted.take mid ≠ [] := by
          apply List.ne_nil_of_length_pos
          omega
        have hdrop_ne : sorted.drop mid ≠ [] := by
          apply List.ne_nil_of_length_pos
          omega
        obtain ⟨dl, el, lenl, leafl, branchl, subl⟩ :=
          ih (sorted.take mid) nodes htake_ne (by omega)
        obtain ⟨dr, er, lenr, leafr, branchr, subr⟩ :=
          ih (sorted.drop mid) (nodes ++ dl) hdrop_ne (by omega)
        have hdl1 : 1 ≤ dl.length := by omega
        have hdr1 : 1 ≤ dr.length := by omega
        refine ⟨dl ++ (dr ++ [BvhNode.branch (nodes.length + dl.length - 1)
            ((nodes ++ dl).length + dr.length - 1) (growAll (p :: q :: rest))]),
          ?_, ?_, ?_, ?_, ?_⟩
        · rw [buildTree_cons_cons]
          dsimp only
          rw [List.splitAt_eq]
          dsimp only
          rw [← hkey, ← hsorted, ← hn, ← hmid, el]
          dsimp only
          rw [er]
          refine Prod.ext ?_ ?_ <;>
            simp [List.length_append, List.append_assoc]
          omega
        · simp only [List.length_append, List.length_cons, List.length_nil]
          omega
        · simp only [leafIds, List.filterMap_append, List.filterMap_cons,
            List.filterMap_nil, List.append_nil]
          refine ((leafl.append leafr).trans ?_)
          rw [← List.map_append, List.take_append_drop]
          exact hperm_sorted.map Prod.fst
        · intro j l r box hj
          by_cases h1 : j < dl.length
          · rw [List.getElem?_append_left h1] at hj
            exact branchl j l r box hj
          · rw [List.getElem?_append_right (by omega)] at hj
            by_cases h2 : j - dl.length < dr.length
            · rw [List.getElem?_append_left h2] at hj
              obtain ⟨b1, b2, b3⟩ := branchr (j - dl.length) l r box hj
              simp only [List.length_append] at b1 b3
              refine ⟨by omega, b2, by omega⟩
            · rw [List.getElem?_append_right (by omega)] at hj
              rcases hx : j - dl.length - dr.length with _ | k
              · rw [hx] at hj
                simp only [List.getElem?_cons_zero, Option.some.injEq] at hj
                obtain ⟨rfl, rfl, rfl⟩ := (BvhNode.branch.injEq _ _ _ _ _ _).mp hj.symm
                simp only [List.length_append]
                refine ⟨by omega, by omega, by omega⟩
              · rw [hx] at hj
                simp at hj
        · have hidx : nodes.length +
              (dl ++ (dr ++ [BvhNode.branch (nodes.length + dl.length - 1)
                ((nodes ++ dl).length + dr.length - 1)
                (growAll (p :: q :: rest))])).length - 1 =
              nodes.length + dl.length + dr.length := by
            simp only [List.length_append, List.length_cons, List.length_nil]
            omega
          rw [hidx]
          have hget : (nodes ++ (dl ++ (dr ++ [BvhNode.branch
              (nodes.length + dl.length - 1)
              ((nodes ++ dl).length + dr.length - 1)
              (growAll (p :: q :: rest))])))[nodes.length + dl.length + dr.length]? =
              some (BvhNode.branch (nodes.length + dl.length - 1)
                ((nodes ++ dl).length + dr.length - 1)
                (growAll (p :: q :: rest))) := by
            rw [show nodes ++ (dl ++ (dr ++ [BvhNode.branch
                (nodes.length + dl.length - 1)
                ((nodes ++ dl).length + dr.length - 1)
                (growAll (p :: q :: rest))])) = (nodes ++ dl ++ dr) ++
                  [BvhNode.branch (nodes.length + dl.length - 1)
                    ((nodes ++ dl).length + dr.length - 1)
                    (growAll (p :: q :: rest))] by
              simp [List.append_assoc]]
            rw [show nodes.length + dl.length + dr.length =
                (nodes ++ dl ++ dr).length by simp [List.length_append]; omega]
            exact List.getElem?_concat_length _ _
          refine SubtreeOk.branch _ (nodes.length + dl.length - 1)
            ((nodes ++ dl).length + dr.length - 1) (growAll (p :: q :: rest))
            (sorted.take mid) (sorted.drop mid) (p :: q :: rest) hget ?_ ?_ ?_ ?_
          · have := subl.append (dr ++ [BvhNode.branch
              (nodes.length + dl.length - 1)
              ((nodes ++ dl).length + dr.length - 1)
              (growAll (p :: q :: rest))])
            simpa [List.append_assoc] using this
          · have := subr.append ([BvhNode.branch
              (nodes.length + dl.length - 1)
              ((nodes ++ dl).length + dr.length - 1)
              (growAll (p :: q :: rest))])
            simpa [List.append_assoc, List.length_append] using this
          · rw [List.take_append_drop]
            exact hperm_sorted.symm
          · exact growAll_contains (p :: q :: rest)

/-- C9: for every nonempty input of n (id, box) pairs, Bvh::new produces an
arena of exactly 2n - 1 nodes whose root is the last node pushed (index
2n - 2), every child reference of a branch points to a strictly smaller
index, and the leaves hold exactly the input object ids (as a multiset,
i.e. up to permutation). -/
theorem bvh_new_invariants (objects : List (ℕ × Aabb ℚ)) (h : objects ≠ []) :
    (Bvh.new objects).nodes.length = 2 * objects.length - 1 ∧
    (Bvh.new objects).root = some (2 * objects.length - 2) ∧
    (∀ j l r box, (Bvh.new objects).nodes[j]? = some (BvhNode.branch l r box) →
      l < j ∧ r < j) ∧
    (leafIds (Bvh.new objects).nodes).Perm (objects.map Prod.fst) := by
  obtain ⟨delta, he, hlen, hleaf, hbranch, _⟩ :=
    buildTree_spec objects.length objects [] h (le_refl _)
  have hne' : objects.isEmpty = false := by
    cases objects
    · exact absurd rfl h
    · rfl
  have hnew : Bvh.new objects = ⟨delta, some (delta.length - 1)⟩ := by
    simp only [Bvh.new, hne', Bool.false_eq_true, if_false, he]
    simp
  rw [hnew]
  refine ⟨by simpa using hlen, by simp; omega, ?_, by simpa using hleaf⟩
  intro j l r box hj
  obtain ⟨b1, b2, b3⟩ := hbranch j l r box hj
  simp only [List.length_nil] at b1 b3
  exact ⟨by omega, by omega⟩

/-- Three disjoint boxes used by the C9 witness. -/
def bvhObjs3 : List (ℕ × Aabb ℚ) :=
  [(0, Aabb.new ⟨0, 0, 0⟩ ⟨1, 1, 1⟩),
   (1, Aabb.new ⟨2, 0, 0⟩ ⟨3, 1, 1⟩),
   (2, Aabb.new ⟨5, 0, 0⟩ ⟨6, 1, 1⟩)]

/-- Witness for C9 at a concrete three-object input. -/
theorem bvh_new_invariants_witness :
    (Bvh.new bvhObjs3).nodes.length = 2 * bvhObjs3.length - 1 ∧
    (Bvh.new bvhObjs3).root = some (2 * bvhObjs3.length - 2) ∧
    (leafIds (Bvh.new bvhObjs3).nodes).Perm (bvhObjs3.map Prod.fst) := by
  have h := bvh_new_invariants bvhObjs3 (by simp [bvhObjs3])
  exact ⟨h.1, h.2.1, h.2.2.2⟩

theorem sphere_hit_t_mem (F : FloatOps) (s : SphereObject) (r : Ray)
    (time : Interval ℚ) (m : Intersection)
    (h : s.hit F r time = some m) :
    time.start < m.t ∧ m.t < time.stop := by
  rw [sphere_hit_eq] at h
  split_ifs at h with h1 h2 h3
  · simp only [Option.some.injEq] at h
    subst h
    push_neg at h3
    exact ⟨h3.1, h3.2⟩
  · simp only [Option.some.injEq] at h
    subst h
    push_neg at h2
    exact ⟨h2.1, h2.2⟩

@[simp] theorem sphereRecord_t (F : FloatOps) (s : SphereObject) (r : Ray)
    (t : ℚ) : (sphereRecord F s r t).t = t := rfl

/-- Shrinking the end of the time interval filters SphereObject::hit: the
result at the smaller interval is the result at the larger one when its `t`
still fits, and nothing otherwise. Requires `sqrt` of the (nonnegative)
discriminant to be nonnegative, which orders the two candidate roots. -/
theorem sphere_hit_shrink (F : FloatOps) (s : SphereObject) (r : Ray)
    (a e e' : ℚ) (hle : e' ≤ e)
    (hs : 0 ≤ sphereDiscriminant s r → 0 ≤ F.sqrt (sphereDiscriminant s r)) :
    s.hit F r ⟨a, e'⟩ =
      match s.hit F r ⟨a, e⟩ with
      | some m => if m.t < e' then some m else none
      | none => none := by
  by_cases hd : sphereDiscriminant s r < 0
  · rw [sphere_hit_eq, sphere_hit_eq, if_pos hd, if_pos hd]
  · have hroots := sphereRoot_le F s r (hs (le_of_not_lt hd))
    rw [sphere_hit_eq, sphere_hit_eq, if_neg hd, if_neg hd]
    dsimp only
    set t1 := sphereRoot1 F s r with ht1
    set t2 := sphereRoot2 F s r with ht2
    by_cases hA1 : t1 ≤ a ∨ e ≤ t1
    · by_cases hA2 : t2 ≤ a ∨ e ≤ t2
      · -- both rejected at the large interval: rejected at the small one too
        have h1 : t1 ≤ a ∨ e' ≤ t1 := by
          rcases hA1 with h | h
          · exact Or.inl h
          · exact Or.inr (hle.trans h)
        have h2 : t2 ≤ a ∨ e' ≤ t2 := by
          rcases hA2 with h | h
          · exact Or.inl h
          · exact Or.inr (hle.trans h)
        rw [if_pos h1, if_pos h2, if_pos hA1, if_pos hA2]
      · -- root2 accepted at the large interval, so root1 rejected below `a`
        push_neg at hA2
        have h1a : t1 ≤ a := by
          rcases hA1 with h | h
          · exact h
          · linarith
        rw [if_pos hA1, if_neg (show ¬(t2 ≤ a ∨ e ≤ t2) by push_neg; exact hA2)]
        dsimp only
        simp only [sphereRecord_t]
        by_cases h2' : t2 < e'
        · rw [if_pos (Or.inl h1a),
            if_neg (show ¬(t2 ≤ a ∨ e' ≤ t2) by push_neg; exact ⟨hA2.1, h2'⟩),
            if_pos h2']
        · rw [if_pos (Or.inl h1a),
            if_pos (show t2 ≤ a ∨ e' ≤ t2 from Or.inr (le_of_not_lt h2')),
            if_neg h2']
    · -- root1 accepted at the large interval
      push_neg at hA1
      rw [if_neg (show ¬(t1 ≤ a ∨ e ≤ t1) by push_neg; exact hA1)]
      dsimp only
      simp only [sphereRecord_t]
      by_cases h1' : t1 < e'
      · rw [if_neg (show ¬(t1 ≤ a ∨ e' ≤ t1) by push_neg; exact ⟨hA1.1, h1'⟩),
          if_pos h1']
      · rw [if_pos (show t1 ≤ a ∨ e' ≤ t1 from Or.inr (le_of_not_lt h1')),
          if_pos (show t2 ≤ a ∨ e' ≤ t2 from
            Or.inr ((le_of_not_lt h1').trans hroots)),
          if_neg h1']

/-- Reference form of the nearest-hit computation: no interval shrinking,
ties broken toward the earlier element. `hitScan_eq_nearestHit` shows the
source's shrinking-interval loop computes exactly this. -/
def nearestHit (F : FloatOps) :
    List SphereObject → Ray → Interval ℚ → Option Intersection
  | [], _, _ => none
  | o :: rest, r, time =>
    match o.hit F r time, nearestHit F rest r time with
    | none, res => res
    | some i, none => some i
    | some i, some j => if j.t < i.t then some j else some i

theorem nearestHit_shrink (F : FloatOps) (r : Ray) (objs : List SphereObject)
    (a e e' : ℚ) (hle : e' ≤ e)
    (hs : ∀ o ∈ objs, 0 ≤ sphereDiscriminant o r →
      0 ≤ F.sqrt (sphereDiscriminant o r)) :
    nearestHit F objs r ⟨a, e'⟩ =
      match nearestHit F objs r ⟨a, e⟩ with
      | some m => if m.t < e' then some m else none
      | none => none := by
  induction objs with
  | nil => rfl
  | cons o rest ih =>
    have ho := hs o (List.mem_cons_self o rest)
    have ihr := ih (fun o' ho' => hs o' (List.mem_cons_of_mem o ho'))
    simp only [nearestHit]
    rw [sphere_hit_shrink F o r a e e' hle ho, ihr]
    cases hbig : o.hit F r ⟨a, e⟩ with
    | none =>
      cases hrest : nearestHit F rest r ⟨a, e⟩ with
      | none => rfl
      | some j => rfl
    | some i =>
      cases hrest : nearestHit F rest r ⟨a, e⟩ with
      | none =>
        dsimp only
        by_cases hi : i.t < e' <;> simp [hi]
      | some j =>
        dsimp only
        by_cases hi : i.t < e' <;> by_cases hj : j.t < e' <;>
          by_cases hji : j.t < i.t <;>
          simp [hi, hj, hji] <;> first
            | rfl
            | (exfalso; linarith)

theorem hitScan_acc (F : FloatOps) (r : Ray) (objs : List SphereObject)
    (a : ℚ) (i : Intersection)
    (hs : ∀ o ∈ objs, 0 ≤ sphereDiscriminant o r →
      0 ≤ F.sqrt (sphereDiscriminant o r)) :
    hitScan F objs r ⟨a, i.t⟩ (some i) =
      match nearestHit F objs r ⟨a, i.t⟩ with
      | none => some i
      | some j => some j := by
  induction objs generalizing i with
  | nil => rfl
  | cons o rest ih =>
    have ho := hs o (List.mem_cons_self o rest)
    have hrest := fun o' ho' => hs o' (List.mem_cons_of_mem o ho')
    simp only [hitScan, nearestHit]
    cases hhit : o.hit F r ⟨a, i.t⟩ with
    | none =>
      dsimp only
      exact ih i hrest
    | some k =>
      dsimp only
      have hkt : k.t < i.t := (sphere_hit_t_mem F o r _ k hhit).2
      rw [ih k hrest,
        nearestHit_shrink F r rest a i.t k.t (le_of_lt hkt) hrest]
      cases hr : nearestHit F rest r ⟨a, i.t⟩ with
      | none => rfl
      | some j =>
        dsimp only
        by_cases hjk : j.t < k.t <;> simp [hjk]

theorem hitScan_eq_nearestHit (F : FloatOps) (r : Ray)
    (objs : List SphereObject) (time : Interval ℚ)
    (hs : ∀ o ∈ objs, 0 ≤ sphereDiscriminant o r →
      0 ≤ F.sqrt (sphereDiscriminant o r)) :
    hitScan F objs r time none = nearestHit F objs r time := by
  induction objs with
  | nil => rfl
  | cons o rest ih =>
    have ho := hs o (List.mem_cons_self o rest)
    have hrest := fun o' ho' => hs o' (List.mem_cons_of_mem o ho')
    simp only [hitScan, nearestHit]
    cases hhit : o.hit F r time with
    | none =>
      dsimp only
      exact ih hrest
    | some i =>
      dsimp only
      obtain ⟨time_start, time_stop⟩ := time
      have hit_lt : i.t < time_stop := (sphere_hit_t_mem F o r _ i hhit).2
      rw [hitScan_acc F r rest time_start i hrest,
        nearestHit_shrink F r rest time_start time_stop i.t (le_of_lt hit_lt)
          hrest]
      cases hr : nearestHit F rest r ⟨time_start, time_stop⟩ with
      | none => rfl
      | some j =>
        dsimp only
        by_cases hji : j.t < i.t <;> simp [hji]

/-- What it means for `res` to be a nearest hit over the object list `objs`:
either nothing hits and `res` is `none`, or `res` is the exact hit record of
one of the objects and no object's hit has a smaller `t`. -/
def IsNearestHit (F : FloatOps) (objs : List SphereObject) (r : Ray)
    (time : Interval ℚ) (res : Option Intersection) : Prop :=
  (res = none ∧ ∀ o ∈ objs, o.hit F r time = none) ∨
  (∃ idx : ℕ, ∃ _h : idx < objs.length, ∃ m,
    res = some m ∧ objs[idx].hit F r time = some m ∧
    ∀ o ∈ objs, ∀ m', o.hit F r time = some m' → m.t ≤ m'.t)

theorem nearestHit_isNearestHit (F : FloatOps) (objs : List SphereObject)
    (r : Ray) (time : Interval ℚ) :
    IsNearestHit F objs r time (nearestHit F objs r time) := by
  induction objs with
  | nil => exact Or.inl ⟨rfl, by simp⟩
  | cons o rest ih =>
    simp only [nearestHit]
    cases hhit : o.hit F r time with
    | none =>
      rcases ih with ⟨hres, hall⟩ | ⟨idx, hidx, m, hres, hm, hmin⟩
      · refine Or.inl ⟨hres, ?_⟩
        intro o' ho'
        rcases List.mem_cons.mp ho' with rfl | ho'
        · exact hhit
        · exact hall o' ho'
      · refine Or.inr ⟨idx + 1, by simpa using hidx, m, hres, by simpa using hm, ?_⟩
        intro o' ho' m' hm'
        rcases List.mem_cons.mp ho' with rfl | ho'
        · rw [hhit] at hm'
          exact absurd hm' (by simp)
        · exact hmin o' ho' m' hm'
    | some i =>
      rcases ih with ⟨hres, hall⟩ | ⟨idx, hidx, m, hres, hm, hmin⟩
      · rw [hres]
        refine Or.inr ⟨0, by simp, i, rfl, by simpa using hhit, ?_⟩
        intro o' ho' m' hm'
        rcases List.mem_cons.mp ho' with rfl | ho'
        · rw [hhit] at hm'
          injection hm' with h
          rw [h]
        · rw [hall o' ho'] at hm'
          exact absurd hm' (by simp)
      · rw [hres]
        dsimp only
        by_cases hji : m.t < i.t
        · rw [if_pos hji]
          refine Or.inr ⟨idx + 1, by simpa using hidx, m, rfl, by simpa using hm, ?_⟩
          intro o' ho' m' hm'
          rcases List.mem_cons.mp ho' with rfl | ho'
          · rw [hhit] at hm'
            injection hm' with h
            rw [h] at hji
            exact le_of_lt hji
          · exact hmin o' ho' m' hm'
        · rw [if_neg hji]
          refine Or.inr ⟨0, by simp, i, rfl, by simpa using hhit, ?_⟩
          intro o' ho' m' hm'
          rcases List.mem_cons.mp ho' with rfl | ho'
          · rw [hhit] at hm'
            injection hm' with h
            rw [h]
          · exact le_trans (le_of_not_lt hji) (hmin o' ho' m' hm')

/-- Two optional hits with distinct `t`s whenever both are present. -/
def tDistinctB (a b : Option Intersection) : Bool :=
  match a, b with
  | some m, some m' => decide (m.t ≠ m'.t)
  | _, _ => true

/-- No two distinct positions of `objs` hit the ray at exactly the same `t`
(within the given interval). -/
def DistinctHitTimes (F : FloatOps) (r : Ray) (time : Interval ℚ)
    (objs : List SphereObject) : Prop :=
  objs.Pairwise (fun o o' => tDistinctB (o.hit F r time) (o'.hit F r time) = true)

theorem isNearestHit_unique (F : FloatOps) (objs : List SphereObject) (r : Ray)
    (time : Interval ℚ) (res1 res2 : Option Intersection)
    (hdist : DistinctHitTimes F r time objs)
    (h1 : IsNearestHit F objs r time res1)
    (h2 : IsNearestHit F objs r time res2) : res1 = res2 := by
  rcases h1 with ⟨hres1, hall1⟩ | ⟨idx1, hidx1, m1, hres1, hm1, hmin1⟩ <;>
    rcases h2 with ⟨hres2, hall2⟩ | ⟨idx2, hidx2, m2, hres2, hm2, hmin2⟩
  · rw [hres1, hres2]
  · rw [hall1 objs[idx2] (objs.getElem_mem hidx2)] at hm2
    exact absurd hm2 (by simp)
  · rw [hall2 objs[idx1] (objs.getElem_mem hidx1)] at hm1
    exact absurd hm1 (by simp)
  · have hts : m1.t = m2.t :=
      le_antisymm (hmin1 objs[idx2] (objs.getElem_mem hidx2) m2 hm2)
        (hmin2 objs[idx1] (objs.getElem_mem hidx1) m1 hm1)
    have hsame : idx1 = idx2 := by
      by_contra hne
      have hpw := List.pairwise_iff_getElem.mp hdist
      rcases Nat.lt_or_ge idx1 idx2 with hlt | hge
      · have := hpw idx1 idx2 hidx1 hidx2 hlt
        rw [hm1, hm2] at this
        simp only [tDistinctB, decide_eq_true_eq] at this
        exact this hts
      · have hlt2 : idx2 < idx1 := by omega
        have := hpw idx2 idx1 hidx2 hidx1 hlt2
        rw [hm1, hm2] at this
        simp only [tDistinctB, decide_eq_true_eq] at this
        exact this hts.symm
    subst hsame
    rw [hm1] at hm2
    injection hm2 with hm
    rw [hres1, hres2, hm]

/-- A nearest hit over a list is a nearest hit over any list with the same
hitting objects: the small list's objects all appear in the big one, and
every object of the big list whose hit is within the interval appears in the
small one. -/
theorem isNearestHit_of_covers (F : FloatOps) (small big : List SphereObject)
    (r : Ray) (time : Interval ℚ) (res : Option Intersection)
    (hsub : ∀ o ∈ small, o ∈ big)
    (hcomplete : ∀ o ∈ big, o.hit F r time ≠ none → o ∈ small)
    (h : IsNearestHit F small r time res) : IsNearestHit F big r time res := by
  rcases h with ⟨hres, hall⟩ | ⟨idx, hidx, m, hres, hm, hmin⟩
  · refine Or.inl ⟨hres, ?_⟩
    intro o ho
    by_cases hnone : o.hit F r time = none
    · exact hnone
    · exact absurd (hall o (hcomplete o ho hnone)) hnone
  · have hmem : small[idx] ∈ big := hsub small[idx] (small.getElem_mem hidx)
    obtain ⟨idx2, hidx2, heq⟩ := List.getElem_of_mem hmem
    refine Or.inr ⟨idx2, hidx2, m, hres, by rw [heq]; exact hm, ?_⟩
    intro o ho m' hm'
    exact hmin o (hcomplete o ho (by rw [hm']; simp)) m' hm'

/-- C3 (amended): the shrinking-interval loop returns a hit record whose `t`
is the globally smallest among all objects whose hit lies within the original
interval (`IsNearestHit`), and the full result — object and material identity
included — is independent of visitation order provided no two distinct
objects hit at exactly the same `t`; with an exact tie the loop keeps the
earliest visited of the tied objects, so the identity depends on the order
(see the counterexample). `sqrt` of each nonnegative discriminant is assumed
nonnegative, as for `f64::sqrt`. -/
theorem hit_scan_nearest (F : FloatOps) (objs objs' : List SphereObject)
    (r : Ray) (time : Interval ℚ)
    (hs : ∀ o ∈ objs, 0 ≤ sphereDiscriminant o r →
      0 ≤ F.sqrt (sphereDiscriminant o r))
    (hperm : objs.Perm objs')
    (hdist : DistinctHitTimes F r time objs) :
    IsNearestHit F objs r time (hitScan F objs r time none) ∧
    hitScan F objs' r time none = hitScan F objs r time none := by
  have hs' : ∀ o ∈ objs', 0 ≤ sphereDiscriminant o r →
      0 ≤ F.sqrt (sphereDiscriminant o r) :=
    fun o ho => hs o (hperm.mem_iff.mpr ho)
  have h1 := hitScan_eq_nearestHit F r objs time hs
  have h2 := hitScan_eq_nearestHit F r objs' time hs'
  have hN1 := nearestHit_isNearestHit F objs r time
  have hN2 := nearestHit_isNearestHit F objs' r time
  have hN2' : IsNearestHit F objs r time (nearestHit F objs' r time) :=
    isNearestHit_of_covers F objs' objs r time _
      (fun o ho => hperm.mem_iff.mpr ho)
      (fun o ho _ => hperm.mem_iff.mp ho) hN2
  rw [h1, h2]
  exact ⟨hN1, isNearestHit_unique F objs r time _ _ hdist hN2' hN1⟩

/-- Concrete `sqrt` for the coincident-2-sphere scenario: the discriminant is
676 there, with square root 26. -/
def opsD : FloatOps := ⟨fun _ => 26, fun _ => (0, 0)⟩

/-- Radius-2 sphere about the origin, material 0. -/
def sphD0 : SphereObject := SphereObject.mk' ⟨0, 0, 0⟩ 2 0

/-- Radius-2 sphere coincident with `sphD0`, material 1. -/
def sphD1 : SphereObject := SphereObject.mk' ⟨0, 0, 0⟩ 2 1

/-- Ray through both coincident spheres (hits each at t = 11/13). -/
def rayD : Ray := ⟨⟨3, 4, 12⟩, ⟨-3, -4, -12⟩⟩

/-- Time interval used by the concrete scenarios. -/
def timeD : Interval ℚ := ⟨1 / 1000, 1000⟩

/-- Counterexample to C3 as stated: with two coincident spheres both hit at
the same `t`, visiting them in the two orders returns records with different
material identity, so the result is not independent of visitation order. -/
theorem hit_scan_order_counterexample :
    hitScan opsD [sphD0, sphD1] rayD timeD none ≠
      hitScan opsD [sphD1, sphD0] rayD timeD none := by
  norm_num [hitScan, SphereObject.hit, opsD, sphD0, sphD1, rayD, timeD,
    SphereObject.mk', SphereObject.calculate_aabb, Aabb.new, Ray.at,
    Intersection.face_normal, Intersection.mk.injEq]

/-- Sphere at x = 2, radius 1, material 0 (hit at t = 1 by `rayAxis`). -/
def sphE0 : SphereObject := SphereObject.mk' ⟨2, 0, 0⟩ 1 0

/-- Sphere at x = 5, radius 1, material 1 (hit at t = 4 by `rayAxis`). -/
def sphE1 : SphereObject := SphereObject.mk' ⟨5, 0, 0⟩ 1 1

/-- Ray along +x from the origin; both `sphE0` and `sphE1` have discriminant
1 against it. -/
def rayAxis : Ray := ⟨⟨0, 0, 0⟩, ⟨1, 0, 0⟩⟩

/-- Witness for the amended C3 at a concrete two-sphere input with distinct
hit times. -/
theorem hit_scan_nearest_witness :
    IsNearestHit opsUnit [sphE0, sphE1] rayAxis timeD
      (hitScan opsUnit [sphE0, sphE1] rayAxis timeD none) ∧
    hitScan opsUnit [sphE1, sphE0] rayAxis timeD none =
      hitScan opsUnit [sphE0, sphE1] rayAxis timeD none := by
  refine hit_scan_nearest opsUnit [sphE0, sphE1] [sphE1, sphE0] rayAxis timeD
    ?_ (List.Perm.swap sphE1 sphE0 []) ?_
  · intro o ho hd
    norm_num [opsUnit]
  · refine List.Pairwise.cons ?_ (List.Pairwise.cons (by simp) List.Pairwise.nil)
    intro o' ho'
    rcases List.mem_cons.mp ho' with rfl | ho'
    · norm_num [tDistinctB, SphereObject.hit, opsUnit, sphE0, sphE1, rayAxis,
        timeD, SphereObject.mk', SphereObject.calculate_aabb, Aabb.new, Ray.at,
        Intersection.face_normal]
    · exact absurd ho' (by simp)

/-- Entry parameter of the slab test on one axis (the smaller of the two
computed parameters). -/
def slabLo (axis : Interval ℚ) (o d : ℚ) : ℚ :=
  min ((axis.start - o) * (1 / d)) ((axis.stop - o) * (1 / d))

/-- Exit parameter of the slab test on one axis. -/
def slabHi (axis : Interval ℚ) (o d : ℚ) : ℚ :=
  max ((axis.start - o) * (1 / d)) ((axis.stop - o) * (1 / d))

theorem slabAxis_eq (axis : Interval ℚ) (o d : ℚ) (time : Interval ℚ) :
    slabAxis axis o d time =
      (if min time.stop (slabHi axis o d) ≤ max time.start (slabLo axis o d)
       then none
       else some ⟨max time.start (slabLo axis o d),
         min time.stop (slabHi axis o d)⟩) := by
  have hmax : ∀ a b : ℚ, (if a < b then b else a) = max a b := by
    intro a b
    split_ifs with h
    · exact (max_eq_right (le_of_lt h)).symm
    · exact (max_eq_left (le_of_not_lt h)).symm
  have hmin : ∀ a b : ℚ, (if b < a then b else a) = min a b := by
    intro a b
    split_ifs with h
    · exact (min_eq_right (le_of_lt h)).symm
    · exact (min_eq_left (le_of_not_lt h)).symm
  simp only [slabAxis, slabLo, slabHi, gt_iff_lt]
  by_cases hsw : (axis.stop - o) * (1 / d) < (axis.start - o) * (1 / d)
  · rw [if_pos hsw]
    dsimp only
    rw [hmax, hmin,
      min_eq_right (le_of_lt hsw), max_eq_left (le_of_lt hsw)]
  · rw [if_neg hsw]
    dsimp only
    rw [hmax, hmin,
      min_eq_left (le_of_not_lt hsw), max_eq_right (le_of_not_lt hsw)]

theorem aabb_hit_iff (B : Aabb ℚ) (r : Ray) (time : Interval ℚ) :
    B.hit r time = true ↔
      max (max (max time.start (slabLo B.x r.orig.x r.dir.x))
          (slabLo B.y r.orig.y r.dir.y)) (slabLo B.z r.orig.z r.dir.z) <
      min (min (min time.stop (slabHi B.x r.orig.x r.dir.x))
          (slabHi B.y r.orig.y r.dir.y)) (slabHi B.z r.orig.z r.dir.z) := by
  set lx := slabLo B.x r.orig.x r.dir.x
  set hx := slabHi B.x r.orig.x r.dir.x
  set ly := slabLo B.y r.orig.y r.dir.y
  set hy := slabHi B.y r.orig.y r.dir.y
  set lz := slabLo B.z r.orig.z r.dir.z
  set hz := slabHi B.z r.orig.z r.dir.z
  simp only [Aabb.hit, slabAxis_eq, Option.some_bind]
  by_cases h1 : min time.stop hx ≤ max time.start lx
  · rw [if_pos h1]
    simp only [Option.none_bind, Option.isSome_none, Bool.false_eq_true,
      false_iff, not_lt]
    calc min (min (min time.stop hx) hy) hz
        ≤ min time.stop hx := (min_le_left _ _).trans (min_le_left _ _)
      _ ≤ max time.start lx := h1
      _ ≤ max (max (max time.start lx) ly) lz :=
          (le_max_left _ _).trans (le_max_left _ _)
  · rw [if_neg h1]
    simp only [Option.some_bind]
    by_cases h2 : min (min time.stop hx) hy ≤ max (max time.start lx) ly
    · rw [if_pos h2]
      simp only [Option.none_bind, Option.isSome_none, Bool.false_eq_true,
        false_iff, not_lt]
      calc min (min (min time.stop hx) hy) hz
          ≤ min (min time.stop hx) hy := min_le_left _ _
        _ ≤ max (max time.start lx) ly := h2
        _ ≤ max (max (max time.start lx) ly) lz := le_max_left _ _
    · rw [if_neg h2]
      simp only [Option.some_bind]
      by_cases h3 : min (min (min time.stop hx) hy) hz ≤
          max (max (max time.start lx) ly) lz
      · rw [if_pos h3]
        simp only [Option.isSome_none, Bool.false_eq_true, false_iff, not_lt]
        exact h3
      · rw [if_neg h3]
        simp only [Option.isSome_some, true_iff]
        exact lt_of_not_le h3

theorem slab_bounds (Bs Be o d t pc : ℚ) (hd : d ≠ 0) (hp : pc = o + d * t)
    (hlo : Bs ≤ pc) (hhi : pc ≤ Be) :
    slabLo ⟨Bs, Be⟩ o d ≤ t ∧ t ≤ slabHi ⟨Bs, Be⟩ o d := by
  simp only [slabLo, slabHi]
  rcases lt_or_gt_of_ne hd with hneg | hpos
  · have h1 : t ≤ (Bs - o) * (1 / d) := by
      rw [mul_one_div, le_div_iff_of_neg hneg]
      nlinarith
    have h2 : (Be - o) * (1 / d) ≤ t := by
      rw [mul_one_div, div_le_iff_of_neg hneg]
      nlinarith
    exact ⟨min_le_of_right_le h2, le_max_of_le_left h1⟩
  · have h1 : (Bs - o) * (1 / d) ≤ t := by
      rw [mul_one_div, div_le_iff hpos]
      nlinarith
    have h2 : t ≤ (Be - o) * (1 / d) := by
      rw [mul_one_div, le_div_iff hpos]
      nlinarith
    exact ⟨min_le_of_left_le h1, le_max_of_le_right h2⟩

theorem slab_boundary (Bs Be o d t pc : ℚ) (hd : d ≠ 0) (hp : pc = o + d * t) :
    (slabHi ⟨Bs, Be⟩ o d = t → pc = Bs ∨ pc = Be) ∧
    (slabLo ⟨Bs, Be⟩ o d = t → pc = Bs ∨ pc = Be) := by
  have conv1 : (Bs - o) * (1 / d) = t → pc = Bs := by
    intro hq
    rw [mul_one_div, div_eq_iff hd] at hq
    rw [hp]
    nlinarith
  have conv2 : (Be - o) * (1 / d) = t → pc = Be := by
    intro hq
    rw [mul_one_div, div_eq_iff hd] at hq
    rw [hp]
    nlinarith
  constructor <;> intro heq
  · rcases max_choice ((Bs - o) * (1 / d)) ((Be - o) * (1 / d)) with hc | hc <;>
      rw [slabHi] at heq
    · exact Or.inl (conv1 (hc.symm.trans heq))
    · exact Or.inr (conv2 (hc.symm.trans heq))
  · rcases min_choice ((Bs - o) * (1 / d)) ((Be - o) * (1 / d)) with hc | hc <;>
      rw [slabLo] at heq
    · exact Or.inl (conv1 (hc.symm.trans heq))
    · exact Or.inr (conv2 (hc.symm.trans heq))

theorem no_corner (rad : ℚ) (hrad : 0 < rad)
    (ci pi Bsi Bei cj pj Bsj Bej : ℚ)
    (hci : Bsi ≤ ci - rad) (hci' : ci + rad ≤ Bei)
    (hcj : Bsj ≤ cj - rad) (hcj' : cj + rad ≤ Bej)
    (hpi : pi = Bsi ∨ pi = Bei) (hpj : pj = Bsj ∨ pj = Bej)
    (hsum : (pi - ci) * (pi - ci) + (pj - cj) * (pj - cj) ≤ rad * rad) :
    False := by
  rcases hpi with rfl | rfl <;> rcases hpj with rfl | rfl <;> nlinarith

set_option maxHeartbeats 1000000 in
/-- Soundness of the slab test for spheres: if a positive-radius sphere's hit
is accepted within the interval, then every box containing the sphere's
bounding box passes `Aabb::hit` for that ray and interval. Requires all
direction components nonzero (the `ℚ` model has no infinite inverse), and
the two `sqrt` facts `0 ≤ sqrt d` and `sqrt d * sqrt d ≤ d` for this
discriminant. -/
theorem aabb_hit_of_contains (F : FloatOps) (B : Aabb ℚ) (s : SphereObject)
    (r : Ray) (time : Interval ℚ) (m : Intersection)
    (hrad : 0 < s.radius)
    (hdx : r.dir.x ≠ 0) (hdy : r.dir.y ≠ 0) (hdz : r.dir.z ≠ 0)
    (hsq : 0 ≤ F.sqrt (sphereDiscriminant s r) ∧
      F.sqrt (sphereDiscriminant s r) * F.sqrt (sphereDiscriminant s r) ≤
        sphereDiscriminant s r)
    (hhit : s.hit F r time = some m)
    (hcont : boxContains B (SphereObject.calculate_aabb s.center s.radius)) :
    B.hit r time = true := by
  obtain ⟨hsq0, hsq2⟩ := hsq
  -- the accepted root and its position in the interval
  have hroot : (time.start < m.t ∧ m.t < time.stop) ∧
      (m.t = sphereRoot1 F s r ∨ m.t = sphereRoot2 F s r) := by
    rw [sphere_hit_eq] at hhit
    by_cases h1 : sphereDiscriminant s r < 0
    · rw [if_pos h1] at hhit
      exact absurd hhit (by simp)
    rw [if_neg h1] at hhit
    by_cases h2 : sphereRoot1 F s r ≤ time.start ∨ time.stop ≤ sphereRoot1 F s r
    · rw [if_pos h2] at hhit
      by_cases h3 : sphereRoot2 F s r ≤ time.start ∨
          time.stop ≤ sphereRoot2 F s r
      · rw [if_pos h3] at hhit
        exact absurd hhit (by simp)
      · rw [if_neg h3] at hhit
        push_neg at h3
        have hmm := Option.some.inj hhit
        rw [← hmm]
        simp only [sphereRecord_t]
        exact ⟨⟨h3.1, h3.2⟩, Or.inr trivial⟩
    · rw [if_neg h2] at hhit
      push_neg at h2
      have hmm := Option.some.inj hhit
      rw [← hmm]
      simp only [sphereRecord_t]
      exact ⟨⟨h2.1, h2.2⟩, Or.inl trivial⟩
  obtain ⟨⟨hts, hte⟩, htroot⟩ := hroot
  have ha : 0 < r.dir.len_sq := by
    rw [Vec3.len_sq_def]
    have hx := mul_self_pos.mpr hdx
    have hy := mul_self_nonneg r.dir.y
    have hz := mul_self_nonneg r.dir.z
    linarith
  -- scalar abbreviations
  set t := m.t with htdef
  set aQ := r.dir.len_sq with haQ
  set hQ := (s.center - r.orig).dot r.dir with hhQ
  set ocsq := (s.center - r.orig).len_sq with hocsq
  set rad := s.radius with hrdef
  set sq := F.sqrt (sphereDiscriminant s r) with hsqdef
  have hdisc : sphereDiscriminant s r = hQ * hQ - aQ * (ocsq - rad * rad) := rfl
  -- the root satisfies hQ - aQ * t = ± sq
  have ha' : aQ ≠ 0 := ne_of_gt ha
  have hsqt : hQ - aQ * t = sq ∨ hQ - aQ * t = -sq := by
    rcases htroot with hr1 | hr1
    · left
      rw [hr1]
      simp only [sphereRoot1]
      rw [← hhQ, ← hsqdef, ← haQ]
      field_simp
    · right
      rw [hr1]
      simp only [sphereRoot2]
      rw [← hhQ, ← hsqdef, ← haQ]
      field_simp
  -- squared distance from the hit point to the center is at most rad²
  have hkeymul : aQ * (aQ * (t * t) - 2 * hQ * t + (ocsq - rad * rad)) ≤ 0 := by
    have hs2 : (hQ - aQ * t) * (hQ - aQ * t) ≤
        hQ * hQ - aQ * (ocsq - rad * rad) := by
      rcases hsqt with hq | hq <;> rw [hq]
      · rw [← hdisc]
        exact hsq2
      · rw [← hdisc]
        calc -sq * -sq = sq * sq := by ring
          _ ≤ _ := hsq2
    nlinarith [hs2]
  have hkey : aQ * (t * t) - 2 * hQ * t + (ocsq - rad * rad) ≤ 0 := by
    nlinarith [hkeymul, ha]
  have hdist : (r.orig.x + r.dir.x * t - s.center.x) *
        (r.orig.x + r.dir.x * t - s.center.x) +
      (r.orig.y + r.dir.y * t - s.center.y) *
        (r.orig.y + r.dir.y * t - s.center.y) +
      (r.orig.z + r.dir.z * t - s.center.z) *
        (r.orig.z + r.dir.z * t - s.center.z) =
      aQ * (t * t) - 2 * hQ * t + ocsq := by
    rw [haQ, hhQ, hocsq]
    simp only [Vec3.len_sq_def, Vec3.dot_def, Vec3.sub_def]
    ring
  have hdist2 : (r.orig.x + r.dir.x * t - s.center.x) *
        (r.orig.x + r.dir.x * t - s.center.x) +
      (r.orig.y + r.dir.y * t - s.center.y) *
        (r.orig.y + r.dir.y * t - s.center.y) +
      (r.orig.z + r.dir.z * t - s.center.z) *
        (r.orig.z + r.dir.z * t - s.center.z) ≤ rad * rad := by
    rw [hdist]
    linarith
  -- containment unfolded to coordinates
  simp only [boxContains, SphereObject.calculate_aabb, Aabb.new, Vec3.sub_def,
    Vec3.add_def, ← hrdef] at hcont
  obtain ⟨hc1, hc2, hc3, hc4, hc5, hc6⟩ := hcont
  -- coordinates of the hit point and per-axis square bounds
  have hsx := mul_self_nonneg (r.orig.x + r.dir.x * t - s.center.x)
  have hsy := mul_self_nonneg (r.orig.y + r.dir.y * t - s.center.y)
  have hsz := mul_self_nonneg (r.orig.z + r.dir.z * t - s.center.z)
  have habs : ∀ u : ℚ, u * u ≤ rad * rad → -rad ≤ u ∧ u ≤ rad := by
    intro u hu
    constructor <;>
      nlinarith [hrad, mul_self_nonneg (u + rad), mul_self_nonneg (u - rad)]
  have hax := habs (r.orig.x + r.dir.x * t - s.center.x) (by linarith)
  have hay := habs (r.orig.y + r.dir.y * t - s.center.y) (by linarith)
  have haz := habs (r.orig.z + r.dir.z * t - s.center.z) (by linarith)
  have hbx : B.x.start ≤ r.orig.x + r.dir.x * t ∧
      r.orig.x + r.dir.x * t ≤ B.x.stop :=
    ⟨by linarith [hax.1], by linarith [hax.2]⟩
  have hby : B.y.start ≤ r.orig.y + r.dir.y * t ∧
      r.orig.y + r.dir.y * t ≤ B.y.stop :=
    ⟨by linarith [hay.1], by linarith [hay.2]⟩
  have hbz : B.z.start ≤ r.orig.z + r.dir.z * t ∧
      r.orig.z + r.dir.z * t ≤ B.z.stop :=
    ⟨by linarith [haz.1], by linarith [haz.2]⟩
  have hslabx := slab_bounds B.x.start B.x.stop r.orig.x r.dir.x t _ hdx rfl
    hbx.1 hbx.2
  have hslaby := slab_bounds B.y.start B.y.stop r.orig.y r.dir.y t _ hdy rfl
    hby.1 hby.2
  have hslabz := slab_bounds B.z.start B.z.stop r.orig.z r.dir.z t _ hdz rfl
    hbz.1 hbz.2
  -- a degenerate slab on one axis is impossible
  have selfLem : ∀ (Bs Be o d : ℚ), d ≠ 0 → Bs < Be →
      slabLo ⟨Bs, Be⟩ o d < slabHi ⟨Bs, Be⟩ o d := by
    intro Bs Be o d hd hBsBe
    rw [slabLo, slabHi]
    refine min_lt_max.mpr ?_
    intro hcontra
    have := mul_right_cancel₀ (one_div_ne_zero hd) hcontra
    have : Bs = Be := by linarith
    exact absurd this (ne_of_lt hBsBe)
  have hBx : B.x.start < B.x.stop := by linarith
  have hBy : B.y.start < B.y.stop := by linarith
  have hBz : B.z.start < B.z.stop := by linarith
  -- a shared corner of two different axes is impossible
  have crossLem : ∀ (Bsi Bei oi di ci Bsj Bej oj dj cj : ℚ),
      di ≠ 0 → dj ≠ 0 →
      Bsi ≤ ci - rad → ci + rad ≤ Bei → Bsj ≤ cj - rad → cj + rad ≤ Bej →
      (oi + di * t - ci) * (oi + di * t - ci) +
        (oj + dj * t - cj) * (oj + dj * t - cj) ≤ rad * rad →
      slabLo ⟨Bsi, Bei⟩ oi di < slabHi ⟨Bsj, Bej⟩ oj dj := by
    intro Bsi Bei oi di ci Bsj Bej oj dj cj hdi hdj hi1 hi2 hj1 hj2 hsum
    by_contra hle
    push_neg at hle
    have hui := habs (oi + di * t - ci)
      (by linarith [mul_self_nonneg (oj + dj * t - cj)])
    have huj := habs (oj + dj * t - cj)
      (by linarith [mul_self_nonneg (oi + di * t - ci)])
    have hpi1 : Bsi ≤ oi + di * t := by linarith [hui.1]
    have hpi2 : oi + di * t ≤ Bei := by linarith [hui.2]
    have hpj1 : Bsj ≤ oj + dj * t := by linarith [huj.1]
    have hpj2 : oj + dj * t ≤ Bej := by linarith [huj.2]
    have hbi := slab_bounds Bsi Bei oi di t _ hdi rfl hpi1 hpi2
    have hbj := slab_bounds Bsj Bej oj dj t _ hdj rfl hpj1 hpj2
    have heqi : slabLo ⟨Bsi, Bei⟩ oi di = t :=
      le_antisymm hbi.1 (hbj.2.trans hle)
    have heqj : slabHi ⟨Bsj, Bej⟩ oj dj = t :=
      le_antisymm (hle.trans hbi.1) hbj.2
    have hmi := (slab_boundary Bsi Bei oi di t _ hdi rfl).2 heqi
    have hmj := (slab_boundary Bsj Bej oj dj t _ hdj rfl).1 heqj
    exact no_corner rad hrad ci (oi + di * t) Bsi Bei cj (oj + dj * t) Bsj Bej
      hi1 hi2 hj1 hj2 hmi hmj hsum
  rw [aabb_hit_iff]
  simp only [max_lt_iff, lt_min_iff]
  have hxy : (r.orig.x + r.dir.x * t - s.center.x) *
        (r.orig.x + r.dir.x * t - s.center.x) +
      (r.orig.y + r.dir.y * t - s.center.y) *
        (r.orig.y + r.dir.y * t - s.center.y) ≤ rad * rad := by linarith
  have hxz : (r.orig.x + r.dir.x * t - s.center.x) *
        (r.orig.x + r.dir.x * t - s.center.x) +
      (r.orig.z + r.dir.z * t - s.center.z) *
        (r.orig.z + r.dir.z * t - s.center.z) ≤ rad * rad := by linarith
  have hyz : (r.orig.y + r.dir.y * t - s.center.y) *
        (r.orig.y + r.dir.y * t - s.center.y) +
      (r.orig.z + r.dir.z * t - s.center.z) *
        (r.orig.z + r.dir.z * t - s.center.z) ≤ rad * rad := by linarith
  have hyx : (r.orig.y + r.dir.y * t - s.center.y) *
        (r.orig.y + r.dir.y * t - s.center.y) +
      (r.orig.x + r.dir.x * t - s.center.x) *
        (r.orig.x + r.dir.x * t - s.center.x) ≤ rad * rad := by linarith
  have hzx : (r.orig.z + r.dir.z * t - s.center.z) *
        (r.orig.z + r.dir.z * t - s.center.z) +
      (r.orig.x + r.dir.x * t - s.center.x) *
        (r.orig.x + r.dir.x * t - s.center.x) ≤ rad * rad := by linarith
  have hzy : (r.orig.z + r.dir.z * t - s.center.z) *
        (r.orig.z + r.dir.z * t - s.center.z) +
      (r.orig.y + r.dir.y * t - s.center.y) *
        (r.orig.y + r.dir.y * t - s.center.y) ≤ rad * rad := by linarith
  have hlx : slabLo B.x r.orig.x r.dir.x ≤ t := hslabx.1
  have hhx : t ≤ slabHi B.x r.orig.x r.dir.x := hslabx.2
  have hly : slabLo B.y r.orig.y r.dir.y ≤ t := hslaby.1
  have hhy : t ≤ slabHi B.y r.orig.y r.dir.y := hslaby.2
  have hlz : slabLo B.z r.orig.z r.dir.z ≤ t := hslabz.1
  have hhz : t ≤ slabHi B.z r.orig.z r.dir.z := hslabz.2
  have hXX : slabLo B.x r.orig.x r.dir.x < slabHi B.x r.orig.x r.dir.x :=
    selfLem _ _ _ _ hdx hBx
  have hYY : slabLo B.y r.orig.y r.dir.y < slabHi B.y r.orig.y r.dir.y :=
    selfLem _ _ _ _ hdy hBy
  have hZZ : slabLo B.z r.orig.z r.dir.z < slabHi B.z r.orig.z r.dir.z :=
    selfLem _ _ _ _ hdz hBz
  have hXY : slabLo B.x r.orig.x r.dir.x < slabHi B.y r.orig.y r.dir.y :=
    crossLem _ _ _ _ _ _ _ _ _ _ hdx hdy hc1 hc2 hc3 hc4 hxy
  have hXZ : slabLo B.x r.orig.x r.dir.x < slabHi B.z r.orig.z r.dir.z :=
    crossLem _ _ _ _ _ _ _ _ _ _ hdx hdz hc1 hc2 hc5 hc6 hxz
  have hYX : slabLo B.y r.orig.y r.dir.y < slabHi B.x r.orig.x r.dir.x :=
    crossLem _ _ _ _ _ _ _ _ _ _ hdy hdx hc3 hc4 hc1 hc2 hyx
  have hYZ : slabLo B.y r.orig.y r.dir.y < slabHi B.z r.orig.z r.dir.z :=
    crossLem _ _ _ _ _ _ _ _ _ _ hdy hdz hc3 hc4 hc5 hc6 hyz
  have hZX : slabLo B.z r.orig.z r.dir.z < slabHi B.x r.orig.x r.dir.x :=
    crossLem _ _ _ _ _ _ _ _ _ _ hdz hdx hc5 hc6 hc1 hc2 hzx
  have hZY : slabLo B.z r.orig.z r.dir.z < slabHi B.y r.orig.y r.dir.y :=
    crossLem _ _ _ _ _ _ _ _ _ _ hdz hdy hc5 hc6 hc3 hc4 hzy
  repeat' apply And.intro
  all_goals first
    | exact hts.trans hte
    | exact hts.trans_le hhx
    | exact hts.trans_le hhy
    | exact hts.trans_le hhz
    | exact hlx.trans_lt hte
    | exact hly.trans_lt hte
    | exact hlz.trans_lt hte
    | exact hXX
    | exact hYY
    | exact hZZ
    | exact hXY
    | exact hXZ
    | exact hYX
    | exact hYZ
    | exact hZX
    | exact hZY

/-- Every branch of the arena points strictly downward, left child below
right child (which Bvh::build_tree guarantees: children are created before
their parent, the left subtree before the right one). -/
def ArenaDown (nodes : List BvhNode) : Prop :=
  ∀ j l r box, nodes[j]? = some (BvhNode.branch l r box) → l < r ∧ r < j

/-- Termination measure for the explicit-stack traversal. -/
def stackMeasure (stack : List ℕ) : ℕ :=
  (stack.map (fun i => 2 ^ (i + 1))).sum

theorem bvhLoop_acc (b : Bvh) (r : Ray) (time : Interval ℚ) :
    ∀ (fuel : ℕ) (stack acc : List ℕ),
      ∃ tail, bvhLoop b r time fuel stack acc = acc ++ tail := by
  intro fuel
  induction fuel with
  | zero =>
    intro stack acc
    exact ⟨[], (List.append_nil acc).symm⟩
  | succ fuel ih =>
    intro stack acc
    cases stack with
    | nil => exact ⟨[], (List.append_nil acc).symm⟩
    | cons node_id rest =>
      simp only [bvhLoop]
      cases hnode : b.nodes.getD node_id (BvhNode.leaf 0) with
      | leaf object_id =>
        dsimp only
        obtain ⟨tail, htail⟩ := ih rest (acc ++ [object_id])
        exact ⟨[object_id] ++ tail, by rw [htail, List.append_assoc]⟩
      | branch left right box =>
        dsimp only
        by_cases hb : box.hit r time = true
        · rw [if_pos hb]
          exact ih _ acc
        · rw [if_neg hb]
          exact ih _ acc

theorem bvhLoop_mem_acc (b : Bvh) (r : Ray) (time : Interval ℚ)
    (fuel : ℕ) (stack acc : List ℕ) (x : ℕ) (hx : x ∈ acc) :
    x ∈ bvhLoop b r time fuel stack acc := by
  obtain ⟨tail, htail⟩ := bvhLoop_acc b r time fuel stack acc
  rw [htail]
  exact List.mem_append_left tail hx

theorem bvhLoop_subset (b : Bvh) (r : Ray) (time : Interval ℚ)
    (hdown : ArenaDown b.nodes) :
    ∀ (fuel : ℕ) (stack acc : List ℕ),
      (∀ s ∈ stack, s < b.nodes.length) →
      ∀ x ∈ bvhLoop b r time fuel stack acc,
        x ∈ acc ∨ x ∈ leafIds b.nodes := by
  intro fuel
  induction fuel with
  | zero =>
    intro stack acc hv x hx
    exact Or.inl hx
  | succ fuel ih =>
    intro stack acc hv x hx
    cases stack with
    | nil => exact Or.inl hx
    | cons node_id rest =>
      simp only [bvhLoop] at hx
      have hnid : node_id < b.nodes.length := hv node_id (List.mem_cons_self _ _)
      rw [List.getD_eq_getElem b.nodes _ hnid] at hx
      have hvrest : ∀ s ∈ rest, s < b.nodes.length :=
        fun s hs => hv s (List.mem_cons_of_mem _ hs)
      cases hnode : b.nodes[node_id] with
      | leaf object_id =>
        rw [hnode] at hx
        dsimp only at hx
        rcases ih rest (acc ++ [object_id]) hvrest x hx with hacc | hleaf
        · rcases List.mem_append.mp hacc with h | h
          · exact Or.inl h
          · right
            have heq : x = object_id := by simpa using h
            subst heq
            exact List.mem_filterMap.mpr
              ⟨BvhNode.leaf x, hnode ▸ b.nodes.getElem_mem hnid, rfl⟩
        · exact Or.inr hleaf
      | branch left right box =>
        rw [hnode] at hx
        dsimp only at hx
        have hlr := hdown node_id left right box
          ((List.getElem?_eq_getElem hnid).trans (congrArg some hnode))
        by_cases hb : box.hit r time = true
        · rw [if_pos hb] at hx
          refine ih _ acc ?_ x hx
          intro s hs
          rcases List.mem_cons.mp hs with rfl | hs
          · omega
          rcases List.mem_cons.mp hs with rfl | hs
          · omega
          · exact hvrest s hs
        · rw [if_neg hb] at hx
          exact ih rest acc hvrest x hx

set_option maxHeartbeats 800000 in
theorem bvhLoop_complete (b : Bvh) (r : Ray) (time : Interval ℚ)
    (hdown : ArenaDown b.nodes) (i0 : ℕ) (bb0 : Aabb ℚ)
    (hpass : ∀ box : Aabb ℚ, boxContains box bb0 → box.hit r time = true) :
    ∀ (fuel : ℕ) (stack acc : List ℕ),
      (∀ s ∈ stack, s < b.nodes.length) →
      stackMeasure stack ≤ fuel →
      (∃ s ∈ stack, ∃ items, SubtreeOk b.nodes s items ∧ (i0, bb0) ∈ items) →
      i0 ∈ bvhLoop b r time fuel stack acc := by
  intro fuel
  induction fuel with
  | zero =>
    intro stack acc hv hm hwit
    obtain ⟨s0, hs0, -⟩ := hwit
    exfalso
    have h1 : 2 ^ (s0 + 1) ≤ stackMeasure stack :=
      List.single_le_sum (by intro y hy; omega) _
        (List.mem_map_of_mem (fun i => 2 ^ (i + 1)) hs0)
    have h2 : (1 : ℕ) ≤ 2 ^ (s0 + 1) := Nat.one_le_two_pow
    omega
  | succ fuel ih =>
    intro stack acc hv hm hwit
    obtain ⟨s0, hs0, items, hsub, hmem⟩ := hwit
    cases stack with
    | nil => exact absurd hs0 (by simp)
    | cons node_id rest =>
      simp only [bvhLoop]
      have hnid : node_id < b.nodes.length := hv node_id (List.mem_cons_self _ _)
      rw [List.getD_eq_getElem b.nodes _ hnid]
      have hvrest : ∀ s ∈ rest, s < b.nodes.length :=
        fun s hs => hv s (List.mem_cons_of_mem _ hs)
      have hmeasure : 2 ^ (node_id + 1) + stackMeasure rest = stackMeasure (node_id :: rest) := by
        simp [stackMeasure]
      rcases List.mem_cons.mp hs0 with rfl | hs0rest
      · -- the witness subtree sits on top of the stack
        cases hsub with
        | leaf idx object_id bb hget =>
          have hnode : b.nodes[s0] = BvhNode.leaf object_id := by
            have := (List.getElem?_eq_getElem hnid).symm.trans hget
            exact Option.some.inj this
          rw [hnode]
          dsimp only
          have hio : i0 = object_id := by
            rcases List.mem_singleton.mp hmem with h
            exact congrArg Prod.fst h
          subst hio
          exact bvhLoop_mem_acc b r time fuel rest (acc ++ [i0]) i0
            (List.mem_append_right acc (List.mem_singleton.mpr rfl))
        | branch idx left right box litems ritems items hget hl hr hperm hbox =>
          have hnode : b.nodes[s0] = BvhNode.branch left right box := by
            have := (List.getElem?_eq_getElem hnid).symm.trans hget
            exact Option.some.inj this
          rw [hnode]
          dsimp only
          have hpassbox : box.hit r time = true := hpass box (hbox (i0, bb0) hmem)
          rw [if_pos hpassbox]
          have hlr := hdown s0 left right box hget
          have hpow1 : 2 ^ (left + 1) ≤ 2 ^ right :=
            Nat.pow_le_pow_right (by norm_num) (by omega)
          have hpow2 : (1 : ℕ) ≤ 2 ^ right := Nat.one_le_two_pow
          have hpow3 : 2 ^ right + 2 ^ right = 2 ^ (right + 1) := by ring
          have hpow4 : 2 ^ (right + 1) + 2 ^ (right + 1) = 2 ^ (right + 2) := by
            ring
          have hpow5 : 2 ^ (right + 2) ≤ 2 ^ (s0 + 1) :=
            Nat.pow_le_pow_right (by norm_num) (by omega)
          refine ih (right :: left :: rest) acc ?_ ?_ ?_
          · intro s hs
            rcases List.mem_cons.mp hs with rfl | hs
            · omega
            rcases List.mem_cons.mp hs with rfl | hs
            · omega
            · exact hvrest s hs
          · have : stackMeasure (right :: left :: rest) =
                2 ^ (right + 1) + (2 ^ (left + 1) + stackMeasure rest) := by
              simp [stackMeasure]
            omega
          · rcases List.mem_append.mp (hperm.mem_iff.mp hmem) with hmm | hmm
            · exact ⟨left, by simp, litems, hl, hmm⟩
            · exact ⟨right, by simp, ritems, hr, hmm⟩
      · -- the witness subtree is deeper in the stack
        have hwit' : ∃ s ∈ rest, ∃ items, SubtreeOk b.nodes s items ∧
            (i0, bb0) ∈ items := ⟨s0, hs0rest, items, hsub, hmem⟩
        have hpow : (1 : ℕ) ≤ 2 ^ node_id := Nat.one_le_two_pow
        have hpows : 2 ^ (node_id + 1) = 2 * 2 ^ node_id := by ring
        cases hnode : b.nodes[node_id] with
        | leaf object_id =>
          dsimp only
          exact ih rest (acc ++ [object_id]) hvrest (by omega) hwit'
        | branch left right box =>
          dsimp only
          have hlr := hdown node_id left right box
            ((List.getElem?_eq_getElem hnid).trans (congrArg some hnode))
          by_cases hb : box.hit r time = true
          · rw [if_pos hb]
            have hpow1 : 2 ^ (left + 1) ≤ 2 ^ right :=
              Nat.pow_le_pow_right (by norm_num) (by omega)
            have hpow2 : (1 : ℕ) ≤ 2 ^ right := Nat.one_le_two_pow
            have hpow3 : 2 ^ right + 2 ^ right = 2 ^ (right + 1) := by ring
            have hpow4 : 2 ^ (right + 1) + 2 ^ (right + 1) = 2 ^ (right + 2) := by
              ring
            have hpow5 : 2 ^ (right + 2) ≤ 2 ^ (node_id + 1) :=
              Nat.pow_le_pow_right (by norm_num) (by omega)
            refine ih (right :: left :: rest) acc ?_ ?_ ?_
            · intro s hs
              rcases List.mem_cons.mp hs with rfl | hs
              · omega
              rcases List.mem_cons.mp hs with rfl | hs
              · omega
              · exact hvrest s hs
            · have : stackMeasure (right :: left :: rest) =
                  2 ^ (right + 1) + (2 ^ (left + 1) + stackMeasure rest) := by
                simp [stackMeasure]
              omega
            · obtain ⟨s1, hs1, it, hit, hm1⟩ := hwit'
              exact ⟨s1, by simp [hs1], it, hit, hm1⟩
          · rw [if_neg hb]
            exact ih rest acc hvrest (by omega) hwit'

theorem sphere_hit_disc_nonneg (F : FloatOps) (s : SphereObject) (r : Ray)
    (time : Interval ℚ) (m : Intersection) (h : s.hit F r time = some m) :
    0 ≤ sphereDiscriminant s r := by
  by_contra hd
  push_neg at hd
  rw [sphere_hit_eq, if_pos hd] at h
  exact absurd h (by simp)

/-- Shape of Bvh::new on a nonempty input, with the arena facts the
equivalence proof needs. -/
theorem bvh_new_spec (objects : List (ℕ × Aabb ℚ)) (h : objects ≠ []) :
    ∃ delta : List BvhNode,
      Bvh.new objects = ⟨delta, some (delta.length - 1)⟩ ∧
      delta.length = 2 * objects.length - 1 ∧
      (leafIds delta).Perm (objects.map Prod.fst) ∧
      ArenaDown delta ∧
      SubtreeOk delta (delta.length - 1) objects := by
  obtain ⟨delta, he, hlen, hleaf, hbranch, hsub⟩ :=
    buildTree_spec objects.length objects [] h (le_refl _)
  have hne' : objects.isEmpty = false := by
    cases objects
    · exact absurd rfl h
    · rfl
  refine ⟨delta, ?_, hlen, hleaf, ?_, ?_⟩
  · simp only [Bvh.new, hne', Bool.false_eq_true, if_false, he]
    simp
  · intro j l r box hj
    obtain ⟨b1, b2, b3⟩ := hbranch j l r box hj
    simp only [List.length_nil] at b1 b3
    exact ⟨b2, by omega⟩
  · simpa using hsub

set_option maxHeartbeats 1600000 in
/-- C1 (amended): with a freshly built BVH, Scene::hit returns exactly the
same result as the linear fallback path — same `t`, hit point, and
object/material identity, and `None` exactly when the fallback returns
`None` — provided every sphere has positive radius and its constructed
bounding box, the ray's direction has no zero component, `sqrt` of each
relevant discriminant is nonnegative with square at most the discriminant,
and no two distinct objects hit at exactly the same `t` (the counterexample
shows the claim fails without that last condition). -/
theorem scene_hit_fast_eq_slow (F : FloatOps) (objs : List SphereObject)
    (bg : Vec3 → Vec3) (r : Ray) (time : Interval ℚ)
    (hrad : ∀ o ∈ objs, 0 < o.radius)
    (hbb : ∀ o ∈ objs, o.bounding_box =
      SphereObject.calculate_aabb o.center o.radius)
    (hdx : r.dir.x ≠ 0) (hdy : r.dir.y ≠ 0) (hdz : r.dir.z ≠ 0)
    (hsq : ∀ o ∈ objs, 0 ≤ sphereDiscriminant o r →
      0 ≤ F.sqrt (sphereDiscriminant o r) ∧
      F.sqrt (sphereDiscriminant o r) * F.sqrt (sphereDiscriminant o r) ≤
        sphereDiscriminant o r)
    (hdist : DistinctHitTimes F r time objs) :
    Scene.hit F (Scene.build_bvh ⟨objs, bg, none⟩) r time =
      Scene.hit F ⟨objs, bg, none⟩ r time := by
  have hsq0 : ∀ o ∈ objs, 0 ≤ sphereDiscriminant o r →
      0 ≤ F.sqrt (sphereDiscriminant o r) := fun o ho hd => (hsq o ho hd).1
  have hslow : Scene.hit F ⟨objs, bg, none⟩ r time =
      hitScan F objs r time none := rfl
  have hslowN : IsNearestHit F objs r time
      (Scene.hit F ⟨objs, bg, none⟩ r time) := by
    rw [hslow, hitScan_eq_nearestHit F r objs time hsq0]
    exact nearestHit_isNearestHit F objs r time
  by_cases hne : objs = []
  · subst hne
    rfl
  · have hn1 : 1 ≤ objs.length := List.length_pos.mpr hne
    set inputs := objs.enum.map (fun p => (p.1, p.2.bounding_box)) with hinputs
    have hinlen : inputs.length = objs.length := by
      simp [hinputs, List.enum_length]
    have hinne : inputs ≠ [] := by
      intro hc
      have hl := congrArg List.length hc
      rw [hinlen] at hl
      exact hne (List.length_eq_zero.mp hl)
    obtain ⟨delta, hnew, hdlen, hdleaf, hddown, hdsub⟩ := bvh_new_spec inputs hinne
    have hids : inputs.map Prod.fst = List.range objs.length := by
      rw [hinputs, List.map_map]
      have hcomp : (Prod.fst ∘ fun p : ℕ × SphereObject =>
          (p.1, p.2.bounding_box)) = Prod.fst := by
        funext p
        rfl
      rw [hcomp, List.enum_map_fst]
    have hd1 : 1 ≤ delta.length := by omega
    have hroot_lt : delta.length - 1 < delta.length := by omega
    have hLHS : Scene.hit F (Scene.build_bvh ⟨objs, bg, none⟩) r time =
        (match (Bvh.new inputs).hit r time with
         | none => none
         | some ids =>
           hitScan F (ids.map (fun i => objs.getD i SphereObject.dflt)) r
             time none) := rfl
    rw [hLHS, hnew]
    set bvhB : Bvh := ⟨delta, some (delta.length - 1)⟩ with hbvhB
    have hnodes : bvhB.nodes = delta := rfl
    set cands := bvhLoop bvhB r time (2 ^ (delta.length + 1))
      [delta.length - 1] [] with hcands
    have hBhit : bvhB.hit r time =
        (if cands.isEmpty then none else some cands) := rfl
    -- every candidate is a valid object index
    have hcand_lt : ∀ c ∈ cands, c < objs.length := by
      intro c hc
      have := bvhLoop_subset bvhB r time (by rw [hnodes]; exact hddown)
        (2 ^ (delta.length + 1)) [delta.length - 1] [] ?_ c hc
      · rcases this with h | h
        · exact absurd h (by simp)
        · rw [hnodes] at h
          have hm := hdleaf.mem_iff.mp h
          rw [hids] at hm
          exact List.mem_range.mp hm
      · intro s hs
        rw [hnodes]
        rcases List.mem_cons.mp hs with rfl | hs
        · exact hroot_lt
        · exact absurd hs (by simp)
    -- completeness: every object hit within the interval is a candidate
    have hcomplete : ∀ (i : ℕ) (hi : i < objs.length) (m : Intersection),
        objs[i].hit F r time = some m → i ∈ cands := by
      intro i hi m hhit
      have hmemo : objs[i] ∈ objs := objs.getElem_mem hi
      have hbbi := hbb objs[i] hmemo
      have hpass : ∀ box : Aabb ℚ,
          boxContains box (objs[i].bounding_box) → box.hit r time = true := by
        intro box hcont
        rw [hbbi] at hcont
        exact aabb_hit_of_contains F box objs[i] r time m (hrad objs[i] hmemo)
          hdx hdy hdz
          (hsq objs[i] hmemo (sphere_hit_disc_nonneg F objs[i] r time m hhit))
          hhit hcont
      have hmemi : (i, objs[i].bounding_box) ∈ inputs := by
        have hl : i < inputs.length := by omega
        have hval : inputs[i] = (i, objs[i].bounding_box) := by
          simp [hinputs, List.getElem_map, List.getElem_enum]
        rw [← hval]
        exact inputs.getElem_mem hl
      refine bvhLoop_complete bvhB r time (by rw [hnodes]; exact hddown) i
        (objs[i].bounding_box) hpass (2 ^ (delta.length + 1))
        [delta.length - 1] [] ?_ ?_ ?_
      · intro s hs
        rw [hnodes]
        rcases List.mem_cons.mp hs with rfl | hs
        · exact hroot_lt
        · exact absurd hs (by simp)
      · have : stackMeasure [delta.length - 1] = 2 ^ (delta.length - 1 + 1) := by
          simp [stackMeasure]
        rw [this]
        exact Nat.pow_le_pow_right (by norm_num) (by omega)
      · exact ⟨delta.length - 1, by simp, inputs, by rw [hnodes]; exact hdsub,
          hmemi⟩
    rw [hBhit]
    by_cases hemp : cands.isEmpty
    · rw [if_pos hemp]
      have hcnil : cands = [] := List.isEmpty_iff.mp hemp
      have hall : ∀ o ∈ objs, o.hit F r time = none := by
        intro o ho
        obtain ⟨i, hi, rfl⟩ := List.getElem_of_mem ho
        cases hh : objs[i].hit F r time with
        | none => rfl
        | some m =>
          have := hcomplete i hi m hh
          rw [hcnil] at this
          exact absurd this (by simp)
      have hnone : IsNearestHit F objs r time none := Or.inl ⟨rfl, hall⟩
      exact isNearestHit_unique F objs r time none _ hdist hnone hslowN
    · rw [if_neg hemp]
      set mapped := cands.map (fun i => objs.getD i SphereObject.dflt) with hmapped
      have hmsub : ∀ o ∈ mapped, o ∈ objs := by
        intro o ho
        obtain ⟨c, hc, rfl⟩ := List.mem_map.mp ho
        rw [List.getD_eq_getElem objs _ (hcand_lt c hc)]
        exact objs.getElem_mem (hcand_lt c hc)
      have hsq0m : ∀ o ∈ mapped, 0 ≤ sphereDiscriminant o r →
          0 ≤ F.sqrt (sphereDiscriminant o r) :=
        fun o ho => hsq0 o (hmsub o ho)
      have hfastN : IsNearestHit F objs r time
          (hitScan F mapped r time none) := by
        rw [hitScan_eq_nearestHit F r mapped time hsq0m]
        refine isNearestHit_of_covers F mapped objs r time _ hmsub ?_
          (nearestHit_isNearestHit F mapped r time)
        intro o ho hhit
        obtain ⟨i, hi, rfl⟩ := List.getElem_of_mem ho
        cases hh : objs[i].hit F r time with
        | none => exact absurd hh hhit
        | some m =>
          have hin := hcomplete i hi m hh
          have : objs.getD i SphereObject.dflt = objs[i] :=
            List.getD_eq_getElem objs _ hi
          rw [← this]
          exact List.mem_map_of_mem _ hin
      exact isNearestHit_unique F objs r time _ _ hdist hfastN hslowN

/-- Concrete `sqrt` for the scenarios whose discriminants are all 169. -/
def opsC : FloatOps := ⟨fun _ => 13, fun _ => (0, 0)⟩

/-- Unit sphere about the origin, material 0. -/
def sphC0 : SphereObject := SphereObject.mk' ⟨0, 0, 0⟩ 1 0

/-- Unit sphere coincident with `sphC0`, material 1. -/
def sphC1 : SphereObject := SphereObject.mk' ⟨0, 0, 0⟩ 1 1

/-- Scene with two coincident unit spheres and no BVH. -/
def sceneC : Scene := ⟨[sphC0, sphC1], fun _ => Vec3.ZERO, none⟩

set_option maxHeartbeats 2000000 in
/-- Counterexample to C1 as stated: on a scene of two coincident spheres the
ray hits both at t = 12/13; the BVH traversal pops the right child first, so
the fast path visits object 1 before object 0, while the linear path visits
0 before 1. The shrinking-interval loop keeps the earliest visited of the
tied hits, so the two paths return records with different material identity
(1 versus 0) — not bit-for-bit identical results. -/
theorem scene_hit_bvh_counterexample :
    Scene.hit opsC (Scene.build_bvh sceneC) rayD timeD ≠
      Scene.hit opsC sceneC rayD timeD := by
  norm_num [Scene.hit, Scene.build_bvh, Scene.hit_fast, Scene.hit_slow,
    sceneC, sphC0, sphC1, opsC, rayD, timeD, Bvh.new, Bvh.buildTree, growAll,
    Aabb.grow, Aabb.largest_axis, Aabb.component, sortByKey, insertByKey,
    Bvh.hit, bvhLoop, Aabb.hit, slabAxis, hitScan, SphereObject.hit,
    SphereObject.mk', SphereObject.calculate_aabb, Aabb.new, Ray.at,
    Intersection.face_normal, Intersection.mk.injEq, List.getD, List.enum,
    List.splitAt, SphereObject.dflt]

/-- Unit sphere centered on the `rayW` axis at distance 13, material 20
(discriminant 169, hit at t = 12/13). -/
def sphW0 : SphereObject := SphereObject.mk' ⟨3, 4, 12⟩ 1 20

/-- Unit sphere centered on the `rayW` axis at distance 26, material 21
(discriminant 169, hit at t = 25/13). -/
def sphW1 : SphereObject := SphereObject.mk' ⟨6, 8, 24⟩ 1 21

/-- Ray from the origin with direction (3, 4, 12): all components nonzero. -/
def rayW : Ray := ⟨⟨0, 0, 0⟩, ⟨3, 4, 12⟩⟩

set_option maxHeartbeats 2000000 in
/-- Witness for the amended C1 at a concrete two-sphere scene with distinct
hit times and a built BVH. -/
theorem scene_hit_fast_eq_slow_witness :
    Scene.hit opsC (Scene.build_bvh ⟨[sphW0, sphW1], fun _ => Vec3.ZERO, none⟩)
        rayW timeD =
      Scene.hit opsC ⟨[sphW0, sphW1], fun _ => Vec3.ZERO, none⟩ rayW timeD := by
  refine scene_hit_fast_eq_slow opsC [sphW0, sphW1] (fun _ => Vec3.ZERO) rayW
    timeD ?_ ?_ ?_ ?_ ?_ ?_ ?_
  · intro o ho
    fin_cases ho <;> norm_num [sphW0, sphW1, SphereObject.mk']
  · intro o ho
    fin_cases ho <;> rfl
  · norm_num [rayW]
  · norm_num [rayW]
  · norm_num [rayW]
  · intro o ho
    fin_cases ho <;>
      norm_num [sphW0, sphW1, SphereObject.mk', sphereDiscriminant, opsC, rayW]
  · simp only [DistinctHitTimes, List.pairwise_cons, List.not_mem_nil,
      false_implies, implies_true, List.Pairwise.nil, and_true]
    intro o ho
    rcases List.mem_cons.mp ho with rfl | ho
    · norm_num [tDistinctB, SphereObject.hit, opsC, sphW0, sphW1, rayW, timeD,
        SphereObject.mk', SphereObject.calculate_aabb, Aabb.new, Ray.at,
        Intersection.face_normal]
    · exact absurd ho (by simp)

end RustyRay
